import Mathlib

/-!
Shallow embedding, in Lean 4, of the command classifier and summarizer of
`codex-rs/core` (source files `command_safety/is_safe_command.rs`,
`powershell_utils.rs`, `parse_command.rs`), together with proofs settling
the frozen claims about it.

Modelling conventions:

* Rust `String`/`&str` values are modelled as `List Char` (`Str` below) and
  argvs as `List Str`.  Byte-index arithmetic in the Rust source is mirrored
  by character-level recursion; the two coincide because every delimiter the
  source scans for is ASCII.
* Every Rust loop whose progress is not simple structural descent is mirrored
  by a fuel-indexed structural recursion; each wrapper instantiates the fuel
  with a bound that the termination lemmas at the end of the file prove
  sufficient.  This keeps every definition kernel-computable (`decide`).
* External collaborators that are not part of the analysed sources (the
  `shlex` crate used via `shlex::split`/`shlex::try_join`, and the
  tree-sitter-backed word-only bash parser of `crate::bash`) are modelled
  from the specification; their doc comments start with
  `Modelled from the spec:`.
-/

namespace CodexSpec

/-- Rust strings, modelled as lists of characters. -/
abbrev Str := List Char

/-- An argv: an ordered list of strings. -/
abbrev Argv := List Str

/-- Character list of a Lean string literal (used to write concrete inputs). -/
def S (s : String) : Str := s.data

/-- The single-quote character. -/
def squote : Char := Char.ofNat 39

/-- The double-quote character. -/
def dquote : Char := Char.ofNat 34

/-- The backquote character. -/
def bquote : Char := Char.ofNat 96

/-- The opening curly-brace character. -/
def lbrace : Char := Char.ofNat 123

/-- The closing curly-brace character. -/
def rbrace : Char := Char.ofNat 125

/-- The backslash character. -/
def bslash : Char := Char.ofNat 92

/-- Rust `str::to_ascii_lowercase` (character-wise; `Char.toLower` only maps
ASCII uppercase letters, exactly like the Rust function). -/
def lowerStr (s : Str) : Str := s.map Char.toLower

/-- Rust `str::eq_ignore_ascii_case`. -/
def eqIgnoreCase (a b : Str) : Bool := lowerStr a == lowerStr b

/-- Rust `str::trim` (whitespace from both ends). -/
def trimStr (s : Str) : Str :=
  ((s.dropWhile Char.isWhitespace).reverse.dropWhile Char.isWhitespace).reverse

/-- Rust `str::trim_matches(c)`: strip all leading and trailing copies of `c`. -/
def trimMatches (c : Char) (s : Str) : Str :=
  ((s.dropWhile (· = c)).reverse.dropWhile (· = c)).reverse

/-- Rust `str::contains(substring)`: does `needle` occur contiguously in
`hay`? -/
def isSubstrOf (needle : Str) : Str → Bool
  | [] => needle.isEmpty
  | c :: rest => needle.isPrefixOf (c :: rest) || isSubstrOf needle rest

/-- Rust `str::split(sep)`: split at every occurrence of `sep`, keeping empty
chunks (`"".split(sep)` yields one empty chunk). -/
def splitAtChar (sep : Char) : Str → List Str
  | [] => [[]]
  | c :: rest =>
    if c = sep then [] :: splitAtChar sep rest
    else
      match splitAtChar sep rest with
      | h :: t => (c :: h) :: t
      | [] => [[c]]

/-- Rust `str::find(sep)` rendered as a splitter: the part before the first
occurrence of `sep` and the part after it. -/
def splitAtFirstChar (sep : Char) : Str → Option (Str × Str)
  | [] => none
  | c :: rest =>
    if c = sep then some ([], rest)
    else (splitAtFirstChar sep rest).map (fun p => (c :: p.1, p.2))

/-- Rust `Iterator::position(pred)` on a list. -/
def positionAux {α : Type} (p : α → Bool) : List α → Option Nat
  | [] => none
  | a :: rest => if p a then some 0 else (positionAux p rest).map (· + 1)

/-- The token-level splitting loop shared by `is_safe_to_call_with_exec` and
`split_on_connectors`: walk the tokens keeping a current buffer, emit the
buffer (when non-empty) at every separator token, and emit the final buffer
when non-empty. -/
def splitOnSepsAux {α : Type} (isSep : α → Bool) (cur : List α) :
    List α → List (List α)
  | [] => if cur.isEmpty then [] else [cur]
  | t :: rest =>
    if isSep t then
      (if cur.isEmpty then splitOnSepsAux isSep [] rest
       else cur :: splitOnSepsAux isSep [] rest)
    else splitOnSepsAux isSep (cur ++ [t]) rest

/-- Token-level split at separator tokens (see `splitOnSepsAux`). -/
def splitOnSeps {α : Type} (isSep : α → Bool) (l : List α) : List (List α) :=
  splitOnSepsAux isSep [] l

/-- Shell pipeline/connector tokens `|`, `&&`, `||`, `;`. -/
def connectorTok (t : Str) : Bool :=
  t == S "|" || t == S "&&" || t == S "||" || t == S ";"

/-- Redirection/merge tokens `>`, `>>`, `<`, `|&`. -/
def redirectTok (t : Str) : Bool :=
  t == S ">" || t == S ">>" || t == S "<" || t == S "|&"

/-! ### Modelled external: the `shlex` crate -/

/-- Scanner mode for the modelled `shlex::split`. -/
inductive ShxMode where
  | out | inS | inD

/-- Modelled from the spec: `shell_split` — "POSIX-style word split honoring
single and double quotes, returning an ordered sequence of words"; returns
`none` on malformed input (an unterminated quote), which the callers turn
into the whitespace-split fallback.  This models the external `shlex::split`
used by the sources. -/
def shlexSplitAux : ShxMode → Option Str → Str → Option (List Str)
  | .out, acc, [] => some (match acc with | some w => [w] | none => [])
  | .inS, _, [] => none
  | .inD, _, [] => none
  | .out, acc, c :: rest =>
    if c.isWhitespace then
      match acc with
      | some w => (shlexSplitAux .out none rest).map (fun ws => w :: ws)
      | none => shlexSplitAux .out none rest
    else if c = squote then shlexSplitAux .inS (some (acc.getD [])) rest
    else if c = dquote then shlexSplitAux .inD (some (acc.getD [])) rest
    else shlexSplitAux .out (some (acc.getD [] ++ [c])) rest
  | .inS, acc, c :: rest =>
    if c = squote then shlexSplitAux .out acc rest
    else shlexSplitAux .inS (some (acc.getD [] ++ [c])) rest
  | .inD, acc, c :: rest =>
    if c = dquote then shlexSplitAux .out acc rest
    else shlexSplitAux .inD (some (acc.getD [] ++ [c])) rest

/-- Modelled from the spec: `shlex::split`. -/
def shlexSplit (s : Str) : Option (List Str) := shlexSplitAux .out none s

/-- Rust `str::split_whitespace` (no empty words). -/
def whitespaceSplitAux (cur : Str) : Str → List Str
  | [] => if cur.isEmpty then [] else [cur]
  | c :: rest =>
    if c.isWhitespace then
      (if cur.isEmpty then whitespaceSplitAux [] rest
       else cur :: whitespaceSplitAux [] rest)
    else whitespaceSplitAux (cur ++ [c]) rest

/-- Rust `str::split_whitespace`. -/
def whitespaceSplit (s : Str) : List Str := whitespaceSplitAux [] s

/-- The recurring source pattern
`shlex_split(s).unwrap_or_else(|| s.split_whitespace().collect())`. -/
def shlexSplitSafe (s : Str) : List Str :=
  (shlexSplit s).getD (whitespaceSplit s)

/-- Characters that never force quoting in the modelled `shlex` joiner. -/
def shlexSafeChar (c : Char) : Bool :=
  c.isAlphanum || c = '_' || c = '@' || c = '%' || c = '+' || c = '=' ||
  c = ':' || c = ',' || c = '.' || c = '/' || c = '-'

/-- Modelled from the spec: quoting of a single word by `shell_join` —
"joins words into a display string, quoting any word that needs it". -/
def shlexQuoteWord (w : Str) : Str :=
  if w.isEmpty || w.any (fun c => !shlexSafeChar c) then
    [squote] ++
      (w.map (fun c =>
        if c = squote then [squote, bslash, squote, squote] else [c])).flatten ++
      [squote]
  else w

/-- Modelled from the spec: `shell_join` — "fails only if a word contains a
NUL, in which case it returns a placeholder literal
`<command included NUL byte>`".  Models `shlex::try_join`. -/
def shlexJoin (ws : List Str) : Str :=
  if ws.any (fun w => w.contains (Char.ofNat 0)) then
    S "<command included NUL byte>"
  else List.intercalate [' '] (ws.map shlexQuoteWord)

/-! ### Modelled external: the word-only bash parser of `crate::bash` -/

/-- The quote-aware splitter `split_on_shell_operators` of
`is_safe_command.rs` (lines 487-529): split at `|`, `&&`, `;` outside
quotes, trimming each emitted part; a standalone `&` aborts the whole split
(`none`, which the wrapper renders as the Rust empty vector). -/
def splitShellOpsAux (inS inD : Bool) (buf : Str) : Str → Option (List Str)
  | [] => some (if (trimStr buf).isEmpty then [] else [trimStr buf])
  | c :: rest =>
    if c = squote && !inD then splitShellOpsAux (!inS) inD (buf ++ [c]) rest
    else if c = dquote && !inS then splitShellOpsAux inS (!inD) (buf ++ [c]) rest
    else if c = '|' && !inS && !inD then
      (splitShellOpsAux inS inD [] rest).map (trimStr buf :: ·)
    else if c = '&' && !inS && !inD then
      match rest with
      | '&' :: rest2 => (splitShellOpsAux inS inD [] rest2).map (trimStr buf :: ·)
      | _ => none
    else if c = ';' && !inS && !inD then
      (splitShellOpsAux inS inD [] rest).map (trimStr buf :: ·)
    else splitShellOpsAux inS inD (buf ++ [c]) rest

/-- `split_on_shell_operators` (the Rust function returns an empty vector when
it meets a standalone `&`). -/
def splitOnShellOperators (s : Str) : List Str :=
  (splitShellOpsAux false false [] s).getD []

/-- Modelled from the spec: the external bash parser
(`try_parse_bash` composed with `try_parse_word_only_commands_sequence` of
`crate::bash`, which is not among the analysed sources) — "returns an ordered
list of argvs where each argv is a simple command (no operators, no
substitutions) connected by safe operators, or `None` if the script uses
features beyond that subset."  The model rejects any script containing
substitution, redirection, grouping or background characters, splits the rest
at top-level safe operators, and word-splits every segment. -/
def tryParseWordOnlyCommandsSeq (script : Str) : Option (List Argv) :=
  if script.any (fun c =>
      c = '$' || c = '<' || c = '>' || c = '(' || c = ')' ||
      c = bquote || c = lbrace || c = rbrace) then none
  else
    match splitShellOpsAux false false [] script with
    | none => none
    | some segs =>
      segs.foldl
        (fun acc seg =>
          match acc with
          | none => none
          | some cs =>
            if (trimStr seg).isEmpty then some cs
            else
              match shlexSplit (trimStr seg) with
              | none => none
              | some ws => some (cs ++ [ws]))
        (some [])

/-- Modelled from the spec: `parse_bash_lc_plain_commands` of `crate::bash` —
per §4.D it "accepts exactly the shape `[shell, "-lc", script]` with
`shell ∈ {bash, zsh}`" and yields the word-only command sequence. -/
def parseBashLcPlainCommands (cmd : Argv) : Option (List Argv) :=
  match cmd with
  | [sh, fl, script] =>
    if (sh == S "bash" || sh == S "zsh") && fl == S "-lc" then
      tryParseWordOnlyCommandsSeq script
    else none
  | _ => none

/-! ### The intent-record data model (`codex_protocol::parse_command::ParsedCommand`) -/

/-- The tagged intent record returned by the summarizer.  `path` fields are
`PathBuf`s in Rust; they are plain strings here (a `PathBuf` is a thin string
wrapper and all claim-relevant comparisons are textual). -/
inductive ParsedCommand where
  | read (cmd name path : Str)
  | listFiles (cmd : Str) (path : Option Str)
  | search (cmd : Str) (query path : Option Str)
  | unknown (cmd : Str)
deriving DecidableEq, Repr

/-! ### Shared `sed -n` range validator

The function appears verbatim in both `is_safe_command.rs` (lines 243-273)
and `parse_command.rs` (lines 1385-1405); it is embedded once. -/

/-- `is_valid_sed_n_arg`: true iff the argument matches `^(\d+,)?\d+p$`. -/
def isValidSedNArg : Option Str → Bool
  | none => false
  | some s =>
    match s.getLast? with
    | none => false
    | some c =>
      if c = 'p' then
        match splitAtChar ',' s.dropLast with
        | [num] => !num.isEmpty && num.all Char.isDigit
        | [a, b] =>
          !a.isEmpty && !b.isEmpty && a.all Char.isDigit && b.all Char.isDigit
        | _ => false
      else false

/-! ### Summary-side helpers (`parse_command.rs`) -/

/-- `shortDisplayPath` (`short_display_path`, lines 1466-1477): normalise
separators, drop a trailing slash, and return the last path segment that is
not empty and not a noise directory. -/
def shortDisplayPath (path : Str) : Str :=
  let normalized := path.map (fun c => if c = bslash then '/' else c)
  let trimmed := (normalized.reverse.dropWhile (· = '/')).reverse
  let parts := ((splitAtChar '/' trimmed).reverse).filter (fun p =>
    !p.isEmpty && !(p == S "build") && !(p == S "dist") &&
    !(p == S "node_modules") && !(p == S "src"))
  match parts.head? with
  | some p => p
  | none => trimmed

/-- `skip_flag_values` (lines 1480-1509): drop flags that consume a value and
`--flag=value` arguments; after a `--`, everything is positional. -/
def skipFlagValues (flagsWithVals : List Str) : Argv → Argv
  | [] => []
  | a :: rest =>
    if a == S "--" then rest
    else if (S "--").isPrefixOf a && a.contains '=' then
      skipFlagValues flagsWithVals rest
    else if flagsWithVals.contains a then
      match rest with
      | [] => []
      | _ :: rest2 => skipFlagValues flagsWithVals rest2
    else a :: skipFlagValues flagsWithVals rest

/-- `trim_at_connector` (lines 1453-1459). -/
def trimAtConnector (tokens : Argv) : Argv :=
  tokens.takeWhile (fun t => !connectorTok t)

/-- `is_pathish` (lines 1511-1518). -/
def isPathish (s : Str) : Bool :=
  s == S "." || s == S ".." || (S "./").isPrefixOf s ||
  (S "../").isPrefixOf s || s.contains '/' || s.contains bslash

/-- `parse_fd_query_and_path` (lines 1520-1551). -/
def parseFdQueryAndPath (tail : Argv) : Option Str × Option Str :=
  let argsNC := trimAtConnector tail
  let candidates := skipFlagValues
    [S "-t", S "--type", S "-e", S "--extension", S "-E", S "--exclude",
     S "--search-path"] argsNC
  let nonFlags := candidates.filter (fun p => !((S "-").isPrefixOf p))
  match nonFlags with
  | [one] =>
    if isPathish one then (none, some (shortDisplayPath one))
    else (some one, none)
  | q :: p :: _ => (some q, some (shortDisplayPath p))
  | _ => (none, none)

/-- The query scan inside `parse_find_query_and_path`: the argument of the
first of `-name`/`-iname`/`-path`/`-regex`, if any. -/
def findNameQuery : Argv → Option Str
  | [] => none
  | a :: rest =>
    if a == S "-name" || a == S "-iname" || a == S "-path" || a == S "-regex"
    then rest.head?
    else findNameQuery rest

/-- `parse_find_query_and_path` (lines 1553-1577). -/
def parseFindQueryAndPath (tail : Argv) : Option Str × Option Str :=
  let argsNC := trimAtConnector tail
  let path := (argsNC.find? (fun a =>
    !((S "-").isPrefixOf a) && !(a == S "!") && !(a == S "(") &&
    !(a == S ")"))).map shortDisplayPath
  (findNameQuery argsNC, path)

/-- The first `-g`/`--glob` value scan in the `rg --files` branch of
`summarize_main_tokens` (lines 1798-1816), supporting split and `=` forms. -/
def rgGlobValue : Argv → Option Str
  | [] => none
  | a :: rest =>
    if a == S "-g" || a == S "--glob" then
      match rest.head? with
      | some v => some v
      | none => rgGlobValue rest
    else
      match splitAtFirstChar '=' a with
      | some (flag, valAfterEq) =>
        if flag == S "--glob" || flag == S "-g" then some valAfterEq
        else rgGlobValue rest
      | none => rgGlobValue rest

/-- `summarize_main_tokens` (lines 1753-2010): per-head summary of a
word-only argv. -/
def summarizeMainTokens (mainCmd : Argv) : ParsedCommand :=
  match mainCmd with
  | [] => .unknown (shlexJoin mainCmd)
  | head :: tail =>
    if head == S "ls" then
      let candidates := skipFlagValues
        [S "-I", S "-w", S "--block-size", S "--format", S "--time-style",
         S "--color", S "--quoting-style"] tail
      let path := (candidates.find? (fun p => !((S "-").isPrefixOf p))).map
        shortDisplayPath
      .listFiles (shlexJoin mainCmd) path
    else if head == S "rg" then
      let argsNC := trimAtConnector tail
      let hasFilesFlag := argsNC.any (fun a => a == S "--files")
      let candidates := skipFlagValues [S "-g", S "--glob"] argsNC
      let nonFlags := candidates.filter (fun p => !((S "-").isPrefixOf p))
      if hasFilesFlag then
        let path :=
          match nonFlags.head? with
          | some s => some (shortDisplayPath s)
          | none => rgGlobValue argsNC
        .search (shlexJoin mainCmd) none path
      else
        .search (shlexJoin mainCmd) nonFlags.head?
          (nonFlags[1]?.map shortDisplayPath)
    else if head == S "fd" then
      let qp := parseFdQueryAndPath tail
      .search (shlexJoin mainCmd) qp.1 qp.2
    else if head == S "find" then
      let qp := parseFindQueryAndPath tail
      .search (shlexJoin mainCmd) qp.1 qp.2
    else if head == S "grep" then
      let argsNC := trimAtConnector tail
      let nonFlags := argsNC.filter (fun p => !((S "-").isPrefixOf p))
      .search (shlexJoin mainCmd) nonFlags.head?
        (nonFlags[1]?.map shortDisplayPath)
    else if head == S "cat" then
      let effectiveTail := if tail.head? == some (S "--") then tail.drop 1 else tail
      match effectiveTail with
      | [p] => .read (shlexJoin mainCmd) (shortDisplayPath p) p
      | _ => .unknown (shlexJoin mainCmd)
    else if head == S "head" then
      let hasValidN :=
        match tail with
        | first :: rest =>
          if first == S "-n" then
            (match rest.head? with
             | some n => n.all Char.isDigit
             | none => false)
          else if (S "-n").isPrefixOf first then (first.drop 2).all Char.isDigit
          else false
        | [] => false
      if hasValidN then
        let candidates :=
          match tail with
          | first :: n :: rest2 =>
            if first == S "-n" && n.all Char.isDigit then rest2 else tail
          | _ => tail
        match candidates.find? (fun p => !((S "-").isPrefixOf p)) with
        | some p => .read (shlexJoin mainCmd) (shortDisplayPath p) p
        | none => .unknown (shlexJoin mainCmd)
      else .unknown (shlexJoin mainCmd)
    else if head == S "tail" then
      let stripPlus := fun (n : Str) => if (S "+").isPrefixOf n then n.drop 1 else n
      let hasValidN :=
        match tail with
        | first :: rest =>
          if first == S "-n" then
            (match rest.head? with
             | some n =>
               !(stripPlus n).isEmpty && (stripPlus n).all Char.isDigit
             | none => false)
          else if (S "-n").isPrefixOf first then
            !(stripPlus (first.drop 2)).isEmpty &&
              (stripPlus (first.drop 2)).all Char.isDigit
          else false
        | [] => false
      if hasValidN then
        let candidates :=
          match tail with
          | first :: n :: rest2 =>
            if first == S "-n" && !(stripPlus n).isEmpty &&
                (stripPlus n).all Char.isDigit then rest2
            else tail
          | _ => tail
        match candidates.find? (fun p => !((S "-").isPrefixOf p)) with
        | some p => .read (shlexJoin mainCmd) (shortDisplayPath p) p
        | none => .unknown (shlexJoin mainCmd)
      else .unknown (shlexJoin mainCmd)
    else if head == S "nl" then
      let candidates := skipFlagValues [S "-s", S "-w", S "-v", S "-i", S "-b"] tail
      match candidates.find? (fun p => !((S "-").isPrefixOf p)) with
      | some p => .read (shlexJoin mainCmd) (shortDisplayPath p) p
      | none => .unknown (shlexJoin mainCmd)
    else if head == S "sed" && tail.length ≥ 3 && tail.head? == some (S "-n")
        && isValidSedNArg tail[1]? then
      match tail[2]? with
      | some p => .read (shlexJoin mainCmd) (shortDisplayPath p) p
      | none => .unknown (shlexJoin mainCmd)
    else .unknown (shlexJoin mainCmd)

/-- `is_small_formatting_command` (lines 1716-1746). -/
def isSmallFormattingCommand (tokens : Argv) : Bool :=
  match tokens.head? with
  | none => false
  | some cmd =>
    if cmd == S "wc" || cmd == S "tr" || cmd == S "cut" || cmd == S "sort" ||
        cmd == S "uniq" || cmd == S "xargs" || cmd == S "tee" ||
        cmd == S "column" || cmd == S "awk" || cmd == S "yes" ||
        cmd == S "printf" then true
    else if cmd == S "head" then tokens.length < 3
    else if cmd == S "tail" then tokens.length < 3
    else if cmd == S "sed" then
      decide (tokens.length < 4) ||
        !(tokens[1]? == some (S "-n") && isValidSedNArg tokens[2]?)
    else false

/-- `drop_small_formatting_commands` (lines 1748-1751). -/
def dropSmallFormattingCommands (commands : List Argv) : List Argv :=
  commands.filter (fun t => !isSmallFormattingCommand t)

/-- `is_abs_like` (lines 2012-2025). -/
def isAbsLike (path : Str) : Bool :=
  (S "/").isPrefixOf path ||
  (match path with
   | d :: c2 :: c3 :: _ => d.isAlpha && c2 = ':' && c3 = bslash
   | _ => false) ||
  (match path with
   | c1 :: c2 :: _ => c1 = bslash && c2 = bslash
   | _ => false)

/-- `join_paths` (lines 2027-2037); `PathBuf::push` inserts a `/` separator
unless the base already ends with one. -/
def joinPaths (base rel : Str) : Str :=
  if isAbsLike rel then rel
  else if base.isEmpty then rel
  else if base.getLast? == some '/' then base ++ rel
  else base ++ '/' :: rel

/-! ### The summary simplifier (`simplify_once`, lines 1326-1382) -/

/-- Does a record render an `Unknown` command whose first shell word is `w`?
(The source tests `shlex_split(cmd).is_some_and(|t| t.first() == Some(w))`.) -/
def unknownHeadIs (w : Str) (pc : ParsedCommand) : Bool :=
  match pc with
  | .unknown cmd =>
    (match shlexSplit cmd with
     | some t => t.head? == some w
     | none => false)
  | _ => false

/-- Is a record an `Unknown` whose command is `nl` followed only by flags? -/
def isNlFlagsOnly (pc : ParsedCommand) : Bool :=
  match pc with
  | .unknown cmd =>
    (match shlexSplit cmd with
     | some toks =>
       toks.head? == some (S "nl") &&
         (toks.drop 1).all (fun t => (S "-").isPrefixOf t)
     | none => false)
  | _ => false

/-- `simplify_once`: one rewrite step of the summary simplifier.  The four
rules fire in source order (leading `echo`, `cd` followed by more, `true`,
flags-only `nl`); `none` means no rule applies. -/
def simplifyOnce (commands : List ParsedCommand) : Option (List ParsedCommand) :=
  if commands.length ≤ 1 then none
  else
    let rule1 : Option (List ParsedCommand) :=
      match commands with
      | pc :: rest => if unknownHeadIs (S "echo") pc then some rest else none
      | [] => none
    let rule2 : Option (List ParsedCommand) :=
      match positionAux (unknownHeadIs (S "cd")) commands with
      | some idx =>
        if commands.length > idx + 1 then
          some (commands.take idx ++ commands.drop (idx + 1))
        else none
      | none => none
    let rule3 : Option (List ParsedCommand) :=
      match positionAux (fun pc => pc == .unknown (S "true")) commands with
      | some idx => some (commands.take idx ++ commands.drop (idx + 1))
      | none => none
    let rule4 : Option (List ParsedCommand) :=
      match positionAux isNlFlagsOnly commands with
      | some idx => some (commands.take idx ++ commands.drop (idx + 1))
      | none => none
    match rule1 with
    | some r => some r
    | none =>
      match rule2 with
      | some r => some r
      | none =>
        match rule3 with
        | some r => some r
        | none => rule4

/-- The `while let Some(next) = simplify_once(&commands)` loop, fuelled; each
step shortens the list, so `length + 1` steps always reach the fixpoint. -/
def simplifyFuelled : Nat → List ParsedCommand → List ParsedCommand
  | 0, commands => commands
  | fuel + 1, commands =>
    match simplifyOnce commands with
    | some next => simplifyFuelled fuel next
    | none => commands

/-- The simplifier run to fixpoint (`parse_command_impl` lines 1319-1321 and
`parse_bash_lc_commands` lines 1639-1641). -/
def simplifyToFixpoint (commands : List ParsedCommand) : List ParsedCommand :=
  simplifyFuelled (commands.length + 1) commands

/-! ### Generic-path parsing (`parse_command_impl`) -/

/-- `normalize_tokens` (lines 1410-1427). -/
def normalizeTokens (cmd : Argv) : Argv :=
  match cmd with
  | first :: pipe :: rest =>
    if (first == S "yes" || first == S "y") && pipe == S "|" then rest
    else if (first == S "no" || first == S "n") && pipe == S "|" then rest
    else
      match cmd with
      | [shell, flag, script] =>
        if (shell == S "bash" || shell == S "zsh") &&
            (flag == S "-c" || flag == S "-lc") then
          match shlexSplit script with
          | some ts => ts
          | none => [shell, flag, script]
        else cmd
      | _ => cmd
  | _ => cmd

/-- The cwd fix-up of the segment loops (lines 1301-1315 and 1618-1633):
prepend the virtual cwd to the path of a `Read` record. -/
def applyCwdToRecord (cwd : Option Str) (pc : ParsedCommand) : ParsedCommand :=
  match pc, cwd with
  | .read cmd name path, some base => .read cmd name (joinPaths base path)
  | other, _ => other

/-- The cwd update performed by a `cd` segment (lines 1290-1298). -/
def updateCwd (cwd : Option Str) (tokens : Argv) : Option Str :=
  match (tokens.drop 1).head? with
  | some dir =>
    some (match cwd with
          | some base => joinPaths base dir
          | none => dir)
  | none => cwd

/-- The segment loop shared verbatim by `parse_command_impl`
(lines 1286-1317) and `parse_bash_lc_commands` (lines 1603-1635): walk the
segments threading a virtual cwd updated by `cd DIR` segments (which emit no
record), summarise every other segment, and prepend the cwd to relative
`Read` paths. -/
def buildCommandsWithCwd (cwd : Option Str) : List Argv → List ParsedCommand
  | [] => []
  | tokens :: rest =>
    if tokens.head? == some (S "cd") then
      buildCommandsWithCwd (updateCwd cwd tokens) rest
    else
      applyCwdToRecord cwd (summarizeMainTokens tokens) ::
        buildCommandsWithCwd cwd rest

/-- `windows(2).any` over a token list. -/
def pairAny (f : Str → Str → Bool) : Argv → Bool
  | a :: b :: rest => f a b || pairAny f (b :: rest)
  | _ => false

/-- `parse_bash_lc_commands` (lines 1579-1711). -/
def parseBashLcCommands (original : Argv) : Option (List ParsedCommand) :=
  match original with
  | [b, flag, script] =>
    if b == S "bash" && flag == S "-lc" then
      some
        (match tryParseWordOnlyCommandsSeq script with
         | some allCommands =>
           if allCommands.isEmpty then [.unknown script]
           else
             let scriptTokens :=
               match shlexSplit script with
               | some ts => ts
               | none => [S "bash", flag, script]
             let hadMultipleCommands := allCommands.length > 1
             let filteredCommands := dropSmallFormattingCommands allCommands
             if filteredCommands.isEmpty then [.unknown script]
             else
               let commands0 := buildCommandsWithCwd none filteredCommands
               let commands1 :=
                 if commands0.length > 1 then
                   simplifyToFixpoint
                     (commands0.filter (fun pc => !(pc == .unknown (S "true"))))
                 else commands0
               if commands1.length = 1 then
                 let hadConnectors :=
                   hadMultipleCommands || scriptTokens.any connectorTok
                 commands1.map (fun pc =>
                   match pc with
                   | .read cmd name path =>
                     if hadConnectors then
                       let hasPipe := scriptTokens.any (fun t => t == S "|")
                       let hasSedN := pairAny
                         (fun a b => a == S "sed" && b == S "-n") scriptTokens
                       if hasPipe && hasSedN then .read script name path
                       else .read cmd name path
                     else .read (shlexJoin scriptTokens) name path
                   | .listFiles cmd path =>
                     if hadConnectors then .listFiles cmd path
                     else .listFiles (shlexJoin scriptTokens) path
                   | .search cmd q p =>
                     if hadConnectors then .search cmd q p
                     else .search (shlexJoin scriptTokens) q p
                   | other => other)
               else commands1
         | none => [.unknown script])
    else none
  | _ => none

/-! ### PowerShell helpers (`powershell_utils.rs`) -/

/-- `is_ps` (lines 11-15). -/
def isPsExe (s : Str) : Bool :=
  s == S "powershell" || s == S "pwsh" || s == S "powershell.exe" ||
  s == S "pwsh.exe"

/-- `PS_ALLOWED_CMDLETS` (lines 17-32). -/
def psAllowedCmdlets : List Str :=
  [S "get-content", S "select-string", S "get-childitem", S "foreach-object",
   S "measure-object", S "join-path", S "where-object", S "select-object",
   S "test-path", S "write-output", S "write-host", S "out-string", S "%"]

/-- `PS_BANNED_SUBSTRS` (lines 34-61). -/
def psBannedSubstrs : List Str :=
  [S ">>", S ">", S " set-", S " remove-", S " new-", S " copy-", S " move-",
   S " start-", S " stop-", S " restart-", S " invoke-", S " out-", S " add-",
   S " clear-", S " write-", S " rename-", S " set-content", S " add-content",
   S " new-item", S " remove-item", S " set-acl", S " remove-acl"]

/-- `PS_BANNED_ALIASES` (line 63). -/
def psBannedAliases : List Str := [S "rm", S "del", S "rmdir", S "mkdir"]

/-- The unquoted-`>` scan at the start of `contains_banned_substring`
(lines 68-81). -/
def unquotedGtScan (inS inD : Bool) : Str → Bool
  | [] => false
  | c :: rest =>
    if c = squote && !inD then unquotedGtScan (!inS) inD rest
    else if c = dquote && !inS then unquotedGtScan inS (!inD) rest
    else if c = '>' && !inS && !inD then true
    else unquotedGtScan inS inD rest

/-- The per-substring check closure of `contains_banned_substring`
(lines 85-98), with the `out-string` and `write-output`/`write-host`
exceptions. -/
def bannedSubCheck (lower : Str) (sub : Str) : Bool :=
  if sub == S ">>" || sub == S ">" then false
  else if sub == S " out-" then
    isSubstrOf sub lower && !(isSubstrOf (S " out-string") lower)
  else if sub == S " write-" then
    isSubstrOf sub lower && !(isSubstrOf (S " write-output") lower) &&
      !(isSubstrOf (S " write-host") lower)
  else isSubstrOf sub lower

/-- `contains_banned_substring` (lines 66-99). -/
def containsBannedSubstring (script : Str) : Bool :=
  if unquotedGtScan false false script then true
  else psBannedSubstrs.any (bannedSubCheck (lowerStr script))

/-- `split_top_level_segments` (lines 102-130): quote-aware split at
top-level `|` and `;`, trimming segments and dropping empty ones. -/
def splitTopAux (inS inD : Bool) (cur : Str) : Str → List Str
  | [] => if (trimStr cur).isEmpty then [] else [trimStr cur]
  | c :: rest =>
    if c = squote && !inD then splitTopAux (!inS) inD (cur ++ [c]) rest
    else if c = dquote && !inS then splitTopAux inS (!inD) (cur ++ [c]) rest
    else if (c = '|' || c = ';') && !inS && !inD then
      (if (trimStr cur).isEmpty then splitTopAux inS inD [] rest
       else trimStr cur :: splitTopAux inS inD [] rest)
    else splitTopAux inS inD (cur ++ [c]) rest

/-- `split_top_level_segments`. -/
def splitTopLevelSegments (s : Str) : List Str := splitTopAux false false [] s

/-- `split_simple_tokens` (lines 133-153): quote-aware tokenization at
whitespace and parentheses (the source appends a sentinel space to flush the
final token, so an unterminated quote swallows its tail). -/
def splitSimpleAux (inS inD : Bool) (cur : Str) : Str → List Str
  | [] => []
  | c :: rest =>
    if c = squote && !inD then splitSimpleAux (!inS) inD cur rest
    else if c = dquote && !inS then splitSimpleAux inS (!inD) cur rest
    else if (c = ' ' || c = '\t' || c = '\n' || c = '(' || c = ')') &&
        !inS && !inD then
      (if cur.isEmpty then splitSimpleAux inS inD [] rest
       else cur :: splitSimpleAux inS inD [] rest)
    else splitSimpleAux inS inD (cur ++ [c]) rest

/-- `split_simple_tokens`. -/
def splitSimpleTokens (seg : Str) : List Str :=
  splitSimpleAux false false [] (seg ++ [' '])

/-- `PS_KEYWORDS_READ_ONLY` (lines 425-428). -/
def psKeywords : List Str :=
  [S "for", S "foreach", S "if", S "elseif", S "else", S "while", S "switch",
   S "try", S "catch", S "finally"]

/-- The first command-like token of a segment (lines 404-417): starts with an
ASCII letter or `%`, is not a variable or flag, and is not an assignment. -/
def psFirstCmdTok (tokens : List Str) : Option Str :=
  tokens.find? (fun t =>
    let t0 := t.head?.getD ' '
    (t0.isAlpha || t0 = '%') && !(t0 = '$') && !(t0 = '-') && !(t.contains '='))

/-- Outcome of classifying one segment in the loop of
`is_powershell_read_only_script` (lines 398-438). -/
inductive PsSegClass where
  | skip
  | banned
  | external (tokens : List Str)

/-- Classify one segment: neutral (no command-like token, cmdlet, or keyword),
banned alias, or external command. -/
def classifyPsSegment (seg : Str) : PsSegClass :=
  let tokens := splitSimpleTokens seg
  if tokens.isEmpty then .skip
  else
    match psFirstCmdTok tokens with
    | none => .skip
    | some firstRaw =>
      let first := lowerStr firstRaw
      if first == S "%" || first.contains '-' then .skip
      else if psKeywords.contains first then .skip
      else if psBannedAliases.contains first then .banned
      else .external tokens

/-- The segment loop of `is_powershell_read_only_script`: collect external
commands in order; a banned alias aborts with `none` (the source's immediate
`return false`). -/
def psSegmentScan : List Str → Option (List Argv)
  | [] => some []
  | seg :: rest =>
    match classifyPsSegment seg with
    | .skip => psSegmentScan rest
    | .banned => none
    | .external tokens => (psSegmentScan rest).map (tokens :: ·)

/-- Separator characters of the cmdlet-allowlist scan (line 474-477). -/
def psTokSepChar (c : Char) : Bool :=
  c = ' ' || c = '\t' || c = '\n' || c = '|' || c = ';' || c = '(' ||
  c = ')' || c = lbrace || c = rbrace || c = ',' || c = '='

/-- Token stream of the cmdlet-allowlist scan of
`is_powershell_read_only_script` (lines 471-500): the trimmed non-empty
buffers between separator characters (a sentinel space flushes the last). -/
def psScanAux (buf : Str) : Str → List Str
  | [] => []
  | c :: rest =>
    if psTokSepChar c then
      (if buf.isEmpty then psScanAux [] rest
       else if (trimStr buf).isEmpty then psScanAux [] rest
       else trimStr buf :: psScanAux [] rest)
    else psScanAux (buf ++ [c]) rest

/-- Token stream of the cmdlet-allowlist scan. -/
def psScanTokens (script : Str) : List Str := psScanAux [] (script ++ [' '])

/-- Is a scanned token subject to the cmdlet allowlist (lines 485-490)?  It
must not start with `$` or `-`, must contain a hyphen, and must contain an
ASCII letter. -/
def psCmdletCandidate (t : Str) : Bool :=
  let t0 := t.head?.getD ' '
  !(t0 = '$') && !(t0 = '-') && t.contains '-' && t.any Char.isAlpha

/-- The cmdlet-allowlist verdict (lines 470-502).  The source's early-breaking
loop sets `allowed = false` at the first candidate token missing from
`PS_ALLOWED_CMDLETS`; that equals this conjunction over all scanned tokens. -/
def psAllowlistAllowed (script : Str) : Bool :=
  (psScanTokens script).all (fun t =>
    !psCmdletCandidate t || psAllowedCmdlets.contains (lowerStr t))

/-- The `type`-mention test of lines 461-466 (shared with
`handle_get_content`, lines 924-927), applied to the lowercased script. -/
def psMentionsTypeCmd (lower : Str) : Bool :=
  (S "type ").isPrefixOf lower || lower == S "type" ||
  isSubstrOf (S "| type ") lower || (S "| type").reverse.isPrefixOf lower.reverse

/-- The flag-skipping loop of `try_extract_powershell_command_script`
(lines 369-376). -/
def extractAfterPsFlags : Argv → Option Str
  | [] => none
  | t :: rest =>
    if t == S "-NoLogo" || t == S "-NoProfile" then extractAfterPsFlags rest
    else if t == S "-Command" || t == S "-c" then rest.head?
    else none

/-- `try_extract_powershell_command_script` (lines 363-377). -/
def tryExtractPowershellCommandScript (cmd : Argv) : Option Str :=
  match cmd with
  | [] => none
  | p :: rest => if isPsExe p then extractAfterPsFlags rest else none

/-! ### PowerShell summary-side helpers (`powershell_utils.rs`, parsing) -/

/-- Insert-or-overwrite into the assignment map (Rust `HashMap::insert`;
the map is only ever queried by key, so an association list is faithful). -/
def assocInsert (map : List (Str × Str)) (k v : Str) : List (Str × Str) :=
  if map.any (fun p => p.1 == k) then
    map.map (fun p => if p.1 == k then (k, v) else p)
  else map ++ [(k, v)]

/-- Lookup in the assignment map (Rust `HashMap::get`). -/
def assocGet (map : List (Str × Str)) (k : Str) : Option Str :=
  (map.find? (fun p => p.1 == k)).map (·.2)

/-- The `i += pos + 1` skip of `ps_collect_simple_assignments` (lines
167-172): drop up to and past the next `;`, or report that none exists. -/
def dropToSemicolonOpt (s : Str) : Option Str :=
  if s.contains ';' then some ((s.dropWhile (fun c => !(c = ';'))).drop 1)
  else none

/-- `ps_collect_simple_assignments` (lines 157-227), fuelled: every loop
iteration strictly advances the cursor, so `length + 1` iterations suffice. -/
def collectAssignsF (fuel : Nat) (s : Str) (map : List (Str × Str)) :
    List (Str × Str) :=
  match fuel with
  | 0 => map
  | fuel + 1 =>
    let s1 := s.dropWhile (fun c => c.isWhitespace || c = ';')
    match s1 with
    | [] => map
    | c :: afterDollar =>
      if !(c = '$') then
        match dropToSemicolonOpt s1 with
        | some s2 => collectAssignsF fuel s2 map
        | none => map
      else
        let name := afterDollar.takeWhile (fun ch => ch.isAlphanum || ch = '_')
        let rest := afterDollar.drop name.length
        if name.isEmpty then collectAssignsF fuel afterDollar map
        else
          match rest.dropWhile Char.isWhitespace with
          | '=' :: rest3 =>
            let rest4 := rest3.dropWhile Char.isWhitespace
            match rest4 with
            | [] => map
            | q :: rest5 =>
              if !(q = squote) && !(q = dquote) then collectAssignsF fuel rest4 map
              else
                let value := rest5.takeWhile (fun ch => !(ch = q))
                match rest5.drop value.length with
                | [] => map
                | _ :: rest7 =>
                  let rest8 := (rest7.dropWhile (fun ch => !(ch = ';'))).drop 1
                  collectAssignsF fuel rest8 (assocInsert map name value)
          | rest2 => collectAssignsF fuel rest2 map

/-- `ps_collect_simple_assignments`. -/
def psCollectSimpleAssignments (script : Str) : List (Str × Str) :=
  collectAssignsF (script.length + 1) script []

/-- The stripping loop of `ps_strip_leading_assignments` (lines 238-285),
fuelled: each iteration consumes the leading `$`, so `length + 1` iterations
suffice. -/
def stripAssignsF (fuel : Nat) (s : Str) : Str :=
  match fuel with
  | 0 => s
  | fuel + 1 =>
    let s1 := s.dropWhile (fun c => c.isWhitespace || c = ';')
    match s1 with
    | [] => s1
    | c :: afterDollar =>
      if !(c = '$') then s1
      else
        let afterName := afterDollar.dropWhile (fun ch => ch.isAlphanum || ch = '_')
        match afterName.dropWhile Char.isWhitespace with
        | '=' :: rest3 =>
          let rest4 := rest3.dropWhile Char.isWhitespace
          match rest4 with
          | q :: rest5 =>
            if q = squote || q = dquote then
              let rest6 := rest5.dropWhile (fun ch => !(ch = q))
              let rest8 := (rest6.drop 1).dropWhile Char.isWhitespace
              let rest9 :=
                match rest8 with
                | ';' :: r => r
                | _ => rest8
              stripAssignsF fuel rest9
            else s1
          | [] => s1
        | _ => s1

/-- `ps_strip_leading_assignments` (lines 230-287). -/
def psStripLeadingAssignments (script : Str) : Str × List (Str × Str) :=
  let assigns := psCollectSimpleAssignments script
  if assigns.isEmpty then (script, assigns)
  else (stripAssignsF (script.length + 1) script, assigns)

/-- `ps_substitute_vars` (lines 290-326), fuelled on the input length: a
recognised `$name` consumes `name` and `$`, anything else consumes one
character. -/
def substVarsF (assigns : List (Str × Str)) (fuel : Nat) (input : Str) : Str :=
  match fuel, input with
  | 0, s => s
  | _ + 1, [] => []
  | fuel + 1, c :: rest =>
    if c = '$' then
      let name := rest.takeWhile (fun ch => ch.isAlphanum || ch = '_')
      if name.isEmpty then c :: substVarsF assigns fuel rest
      else
        match assocGet assigns name with
        | some val =>
          let needsQuotes := val.any (fun ch =>
            ch = bslash || ch = ' ' || ch = '\t' || ch = ';' || ch = '|')
          let rendered :=
            if needsQuotes then
              dquote ::
                ((val.map (fun ch =>
                  if ch = dquote then [bslash, dquote] else [ch])).flatten ++
                 [dquote])
            else val
          rendered ++ substVarsF assigns fuel (rest.drop name.length)
        | none => c :: substVarsF assigns fuel rest
    else c :: substVarsF assigns fuel rest

/-- `ps_substitute_vars_preserving_style` (lines 330-359). -/
def substVarsPlainF (assigns : List (Str × Str)) (fuel : Nat) (input : Str) :
    Str :=
  match fuel, input with
  | 0, s => s
  | _ + 1, [] => []
  | fuel + 1, c :: rest =>
    if c = '$' then
      let name := rest.takeWhile (fun ch => ch.isAlphanum || ch = '_')
      if name.isEmpty then c :: substVarsPlainF assigns fuel rest
      else
        match assocGet assigns name with
        | some val => val ++ substVarsPlainF assigns fuel (rest.drop name.length)
        | none => c :: substVarsPlainF assigns fuel rest
    else c :: substVarsPlainF assigns fuel rest

/-- The boundary-checked `-path` search of `ps_extract_filenames`
(lines 510-524): first occurrence of `-path` (case-insensitive) whose
preceding character is not a letter, `-`, or `_`; returns the suffix after
the occurrence. -/
def findAfterDashPath (prev : Option Char) : Str → Option Str
  | [] => none
  | c :: rest =>
    if (S "-path").isPrefixOf (lowerStr (c :: rest)) then
      match prev with
      | some p =>
        if p.isAlpha || p = '-' || p = '_' then findAfterDashPath (some c.toLower) rest
        else some ((c :: rest).drop 5)
      | none => some ((c :: rest).drop 5)
    else findAfterDashPath (some c.toLower) rest

/-- The value-capture scan of `ps_extract_filenames` (lines 528-553): stop at
a top-level `|`/`;` or at a `-` that follows whitespace. -/
def psFnListScan (inQuote : Option Char) (prev : Option Char) : Str → Str
  | [] => []
  | ch :: rest =>
    match inQuote with
    | some q =>
      if ch = q then ch :: psFnListScan none (some ch) rest
      else ch :: psFnListScan (some q) (some ch) rest
    | none =>
      if ch = squote || ch = dquote then ch :: psFnListScan (some ch) (some ch) rest
      else if ch = '|' || ch = ';' then []
      else if ch = '-' &&
          (match prev with | some p => p.isWhitespace | none => false) then []
      else ch :: psFnListScan none (some ch) rest

/-- `ps_extract_filenames` (lines 509-562). -/
def psExtractFilenames (script : Str) : List Str :=
  match findAfterDashPath none script with
  | none => []
  | some after =>
    let rest := after.dropWhile (fun c => c.isWhitespace || c = ':' || c = '=')
    let buf := psFnListScan none none rest
    let list := trimStr buf
    if list.isEmpty then []
    else
      ((splitAtChar ',' list).map (fun s =>
        trimMatches dquote (trimMatches squote (trimStr s)))).filter
        (fun s => !s.isEmpty)

/-- Unboundaried case-insensitive substring search returning the suffix of
the original string after the first occurrence (Rust
`lower.find(needle)` followed by slicing the original). -/
def findLowerInfixAfter (needle : Str) : Str → Option Str
  | [] => none
  | c :: rest =>
    if needle.isPrefixOf (lowerStr (c :: rest)) then
      some ((c :: rest).drop needle.length)
    else findLowerInfixAfter needle rest

/-- `ps_extract_match_query` (lines 566-589). -/
def psExtractMatchQuery (script : Str) : Option Str :=
  match findLowerInfixAfter (S "-match") script with
  | none => none
  | some after =>
    match after.dropWhile (fun c => c.isWhitespace || c = ':' || c = '=') with
    | [] => none
    | q :: rest2 =>
      if !(q = squote) && !(q = dquote) then none
      else
        let value := rest2.takeWhile (fun ch => !(ch = q))
        let simplified := value.filter (fun ch =>
          !(ch = bslash) && !(ch = dquote) && !(ch = squote))
        if simplified.isEmpty then none else some simplified

/-- `ps_extract_pattern` (lines 592-634). -/
def psExtractPattern (script : Str) : Option Str :=
  match findLowerInfixAfter (S "-pattern") script with
  | none => none
  | some after =>
    match after.dropWhile (fun c => c.isWhitespace || c = ':' || c = '=') with
    | [] => none
    | first :: rest2 =>
      if first = squote || first = dquote then
        some (rest2.takeWhile (fun ch => !(ch = first)))
      else
        let value := (first :: rest2).takeWhile (fun ch => !ch.isWhitespace)
        if value.isEmpty then none else some value

/-- The candidate tokenizer of `ps_extract_filename` (lines 640-679). -/
def psFilenameScanAux (inQuote : Option Char) (cur : Str) : Str → List Str
  | [] => if cur.isEmpty then [] else [cur]
  | ch :: rest =>
    match inQuote with
    | some q =>
      if ch = q then
        (if cur.isEmpty then psFilenameScanAux none [] rest
         else cur :: psFilenameScanAux none [] rest)
      else psFilenameScanAux (some q) (cur ++ [ch]) rest
    | none =>
      if ch = squote || ch = dquote then
        (if cur.isEmpty then psFilenameScanAux (some ch) [] rest
         else cur :: psFilenameScanAux (some ch) [] rest)
      else if ch.isWhitespace || ch = '|' || ch = ';' || ch = '(' || ch = ')' ||
          ch = lbrace || ch = rbrace || ch = ',' || ch = '=' then
        (if cur.isEmpty then psFilenameScanAux none [] rest
         else cur :: psFilenameScanAux none [] rest)
      else psFilenameScanAux none (cur ++ [ch]) rest

/-- `ps_extract_filename` (lines 637-688): the first candidate token that
contains a dot and a letter. -/
def psExtractFilename (script : Str) : Option Str :=
  (psFilenameScanAux none [] script).find? (fun c =>
    let lc := lowerStr c
    lc.contains '.' && lc.any Char.isAlpha)

/-- `ps_extract_directory` (lines 691-720): the first quoted string
containing a path separator. -/
def psDirScanAux (inQuote : Option Char) (cur : Str) : Str → Option Str
  | [] => none
  | ch :: rest =>
    match inQuote with
    | some q =>
      if ch = q then
        (if !cur.isEmpty && (cur.contains '/' || cur.contains bslash) then some cur
         else psDirScanAux none [] rest)
      else psDirScanAux (some q) (cur ++ [ch]) rest
    | none =>
      if ch = squote || ch = dquote then psDirScanAux (some ch) cur rest
      else psDirScanAux none cur rest

/-- `ps_extract_directory`. -/
def psExtractDirectory (script : Str) : Option Str := psDirScanAux none [] script

/-- The inner `j` loop of `collect_positional_get_content_args`
(lines 836-851): skip flags, then inspect the first non-flag token; returns
the pushed value (if any) and the remaining token list starting at that
token (the loop resumes there). -/
def gcFindOperand : List Str → Option Str × List Str
  | [] => (none, [])
  | t :: rest =>
    if (S "-").isPrefixOf t then gcFindOperand rest
    else
      let raw := trimMatches dquote (trimMatches squote t)
      let looksLikePath := raw.contains '/' || raw.contains bslash ||
        (raw.contains '.' && raw.any Char.isAlpha)
      (if looksLikePath && !raw.isEmpty then some raw else none, t :: rest)

/-- The per-segment loop of `collect_positional_get_content_args`
(lines 821-856), fuelled (each iteration consumes at least one token). -/
def gcArgScanF : Nat → List Str → List Str
  | 0, _ => []
  | _ + 1, [] => []
  | fuel + 1, t :: rest =>
    if eqIgnoreCase t (S "get-content") || eqIgnoreCase t (S "type") then
      let hasPathFlag := rest.any (fun x =>
        let l := lowerStr x
        l == S "-path" || (S "-path:").isPrefixOf l ||
        l == S "-literalpath" || (S "-literalpath:").isPrefixOf l)
      if hasPathFlag then gcArgScanF fuel rest
      else
        let fr := gcFindOperand rest
        (match fr.1 with
         | some r => [r]
         | none => []) ++ gcArgScanF fuel fr.2
    else gcArgScanF fuel rest

/-- `collect_positional_get_content_args` (lines 818-859). -/
def collectPositionalGetContentArgs (script : Str) : List Str :=
  ((splitTopLevelSegments script).map (fun seg =>
    let toks := splitSimpleTokens seg
    gcArgScanF (toks.length + 1) toks)).flatten

/-- `handle_select_string` (lines 861-894). -/
def handleSelectString (script cmdForDisplay lower : Str)
    (patternQuery dirPath : Option Str) : Option (List ParsedCommand) :=
  if !(isSubstrOf (S "select-string") lower) then none
  else if isSubstrOf (S "get-content") lower &&
      (psExtractFilename script).isSome then
    (psExtractFilename script).map (fun n =>
      [.read cmdForDisplay (shortDisplayPath n) n])
  else
    let firstPath := (psExtractFilenames script).head?
    let pathHint :=
      match firstPath.map shortDisplayPath with
      | some p => some p
      | none => dirPath
    some [.search cmdForDisplay patternQuery pathHint]

/-- `handle_get_childitem` (lines 896-914). -/
def handleGetChilditem (script cmdForDisplay lower : Str)
    (dirPath : Option Str) : Option (List ParsedCommand) :=
  if !(isSubstrOf (S "get-childitem") lower) then none
  else
    let matchQuery := psExtractMatchQuery script
    let dirPath' := if matchQuery.isSome then none else dirPath
    some [.search cmdForDisplay matchQuery dirPath']

/-- The first occurrence index (character position) of `needle` in `hay`
(Rust `str::find(&needle)`; byte and character positions are order-isomorphic,
which is all the sort key needs). -/
def findSubstrIdx (needle : Str) : Str → Option Nat
  | [] => if needle.isEmpty then some 0 else none
  | c :: rest =>
    if needle.isPrefixOf (c :: rest) then some 0
    else (findSubstrIdx needle rest).map (· + 1)

/-- The sort key of `handle_get_content` (lines 943-946):
`script.find(&raw).or_else(|| script.find(&display))`; a missing occurrence
sorts last (`usize::MAX` in the source, rendered here as `length + 1`, which
exceeds every real index). -/
def gcEntryKey (script raw display : Str) : Nat :=
  match findSubstrIdx raw script with
  | some i => i
  | none =>
    match findSubstrIdx display script with
    | some i => i
    | none => script.length + 1

/-- The dedup-and-key loop of `handle_get_content` (lines 933-948). -/
def gcEntriesAux (script : Str) (seen : List Str) :
    List Str → List (Nat × Str × Str)
  | [] => []
  | raw :: rest =>
    let display := shortDisplayPath raw
    if seen.contains display then gcEntriesAux script seen rest
    else (gcEntryKey script raw display, display, raw) ::
      gcEntriesAux script (display :: seen) rest

/-- Stable insertion into a key-sorted entry list (`Vec::sort_by_key` is a
stable sort; an element moves before another only when its key is strictly
smaller). -/
def gcInsertByKey (e : Nat × Str × Str) :
    List (Nat × Str × Str) → List (Nat × Str × Str)
  | [] => [e]
  | h :: t => if h.1 < e.1 then h :: gcInsertByKey e t else e :: h :: t

/-- Stable sort by key (`entries.sort_by_key(|(idx, _, _)| *idx)`). -/
def gcSortByKey : List (Nat × Str × Str) → List (Nat × Str × Str)
  | [] => []
  | h :: t => gcInsertByKey h (gcSortByKey t)

/-- `handle_get_content` (lines 916-970). -/
def handleGetContent (script cmdForDisplay lower : Str)
    (fileNames positionalGetContentArgs : List Str) :
    Option (List ParsedCommand) :=
  let mentionsGetContent := isSubstrOf (S "get-content") lower
  let mentionsType := psMentionsTypeCmd lower
  if !mentionsGetContent && !mentionsType then none
  else if !fileNames.isEmpty || !positionalGetContentArgs.isEmpty then
    let entries := gcSortByKey
      (gcEntriesAux script [] (fileNames ++ positionalGetContentArgs))
    some (entries.map (fun e => .read cmdForDisplay e.2.1 e.2.2))
  else
    match psExtractFilename script with
    | some n => some [.read cmdForDisplay (shortDisplayPath n) n]
    | none => none

/-- `shlex_fallback` (lines 972-1042). -/
def shlexFallback (script : Str) (cmdForDisplay : Str) :
    Option (List ParsedCommand) :=
  match shlexSplit script with
  | none => none
  | some tokens =>
    let isCC := fun (t : Str) => t == S "&&" || t == S "||" || t == S ";"
    if tokens.any isCC then
      let segments := splitOnSeps isCC tokens
      let commands := segments.map (fun seg =>
        let joined := shlexJoin seg
        match summarizeMainTokens seg with
        | .read _ name path => ParsedCommand.read joined name path
        | .listFiles _ path => ParsedCommand.listFiles joined path
        | .search _ q p => ParsedCommand.search joined q p
        | _ => ParsedCommand.unknown joined)
      some (simplifyToFixpoint commands)
    else
      some [match summarizeMainTokens tokens with
        | .read _ name path => ParsedCommand.read cmdForDisplay name path
        | .listFiles _ path => ParsedCommand.listFiles cmdForDisplay path
        | .search _ q p => ParsedCommand.search cmdForDisplay q p
        | _ => ParsedCommand.unknown cmdForDisplay]

/-- `parse_powershell_commands` (lines 1045-1103). -/
def parsePowershellCommands (original : Argv) : Option (List ParsedCommand) :=
  match tryExtractPowershellCommandScript original with
  | none => none
  | some script =>
    let sa := psStripLeadingAssignments script
    let substituted := substVarsF sa.2 (sa.1.length + 1) sa.1
    let substitutedDisplay := substVarsPlainF sa.2 (sa.1.length + 1) sa.1
    let cmdForDisplayOriginal := script
    let lowerScript := lowerStr substituted
    let patternQuery := psExtractPattern substituted
    let fileNames := psExtractFilenames substituted
    let positionalGetContentArgs := collectPositionalGetContentArgs substituted
    let dirPath := (psExtractDirectory substituted).map shortDisplayPath
    match handleSelectString substituted cmdForDisplayOriginal lowerScript
        patternQuery dirPath with
    | some res => some res
    | none =>
      match handleGetChilditem substituted cmdForDisplayOriginal lowerScript
          dirPath with
      | some res => some res
      | none =>
        match handleGetContent substituted cmdForDisplayOriginal lowerScript
            fileNames positionalGetContentArgs with
        | some res => some res
        | none =>
          match shlexFallback substituted substitutedDisplay with
          | some v => some v
          | none => some [.unknown cmdForDisplayOriginal]

/-! ### Windows `cmd.exe` parsing (`powershell_utils.rs`, lines 722-813) -/

/-- `is_cmd` (lines 730-733). -/
def isCmdExe (s : Str) : Bool :=
  lowerStr s == S "cmd" || lowerStr s == S "cmd.exe"

/-- The quoted-query scan of `cmd_extract_query` (lines 790-812). -/
def cmdQueryScan (inQuote : Option Char) (cur : Str) : Str → Option Str
  | [] => none
  | ch :: rest =>
    match inQuote with
    | some q =>
      if ch = q then
        (if !cur.isEmpty then some cur else cmdQueryScan none [] rest)
      else cmdQueryScan (some q) (cur ++ [ch]) rest
    | none =>
      if ch = squote || ch = dquote then cmdQueryScan (some ch) cur rest
      else cmdQueryScan none cur rest

/-- `cmd_extract_query` (lines 786-813). -/
def cmdExtractQuery (script : Str) : Option Str :=
  (findLowerInfixAfter (S "findstr") script).bind (cmdQueryScan none [])

/-- `parse_cmd_exe_commands` (lines 725-783). -/
def parseCmdExeCommands (original : Argv) : Option (List ParsedCommand) :=
  let shaped : Option (Argv × Str) :=
    match original with
    | [c, a, b, d, script] =>
      if isCmdExe c && a == S "/d" && b == S "/s" && d == S "/c" then
        some ([c, a, b, d], script)
      else none
    | [c, a, b, script] =>
      if isCmdExe c && a == S "/s" && b == S "/c" then some ([c, a, b], script)
      else none
    | [c, a, script] =>
      if isCmdExe c && a == S "/c" then some ([c, a], script) else none
    | _ => none
  match shaped with
  | none => none
  | some (prefixFlags, script) =>
    let pre := List.intercalate [' '] prefixFlags
    let lower := lowerStr script
    let display := pre ++ ' ' :: script
    let typeRead : Option (List ParsedCommand) :=
      if (S "type ").isPrefixOf lower || lower == S "type" then
        (psExtractFilename script).map (fun name =>
          [.read display (shortDisplayPath name) name])
      else none
    match typeRead with
    | some r => some r
    | none =>
      if (S "dir").isPrefixOf lower then some [.listFiles display none]
      else if isSubstrOf (S "findstr") lower then
        some [.search display (cmdExtractQuery script) none]
      else some [.unknown display]

/-! ### The summary entry point (`parse_command.rs`) -/

/-- `parse_command_impl` (lines 1263-1324). -/
def parseCommandImpl (command : Argv) : List ParsedCommand :=
  match parseBashLcCommands command with
  | some commands => commands
  | none =>
    match parsePowershellCommands command with
    | some commands => commands
    | none =>
      match parseCmdExeCommands command with
      | some commands => commands
      | none =>
        let normalized := normalizeTokens command
        let parts :=
          if normalized.any connectorTok then splitOnSeps connectorTok normalized
          else [normalized]
        simplifyToFixpoint (buildCommandsWithCwd none parts)

/-- The consecutive-duplicate collapse of `parse_command` (lines 28-35):
skip a record equal to the previously kept one. -/
def dedupConsecAux (prev : ParsedCommand) : List ParsedCommand → List ParsedCommand
  | [] => []
  | c :: rest =>
    if c = prev then dedupConsecAux prev rest else c :: dedupConsecAux c rest

/-- Collapse consecutive duplicates (`parse_command`, lines 26-35). -/
def dedupConsec : List ParsedCommand → List ParsedCommand
  | [] => []
  | c :: rest => c :: dedupConsecAux c rest

/-- `parse_command` (lines 25-36): the public summary entry point
(`parse_intent` in the specification). -/
def parseCommand (command : Argv) : List ParsedCommand :=
  dedupConsec (parseCommandImpl command)

/-! ### The safety gate (`command_safety/is_safe_command.rs`) -/

/-- `UNSAFE_FIND_OPTIONS` (lines 147-155). -/
def unsafeFindOptions : List Str :=
  [S "-exec", S "-execdir", S "-ok", S "-okdir", S "-delete", S "-fls",
   S "-fprint", S "-fprint0", S "-fprintf"]

/-- `UNSAFE_RIPGREP_OPTIONS_WITH_ARGS` (lines 164-169). -/
def unsafeRipgrepOptionsWithArgs : List Str := [S "--pre", S "--hostname-bin"]

/-- `UNSAFE_RIPGREP_OPTIONS_WITHOUT_ARGS` (lines 170-175). -/
def unsafeRipgrepOptionsWithoutArgs : List Str := [S "--search-zip", S "-z"]

/-- The per-argument test of the `rg` arm (lines 177-182): an unsafe
argument is one of the no-argument options, or one of the
argument-taking options either verbatim or with a glued `=value`. -/
def rgUnsafeArg (a : Str) : Bool :=
  unsafeRipgrepOptionsWithoutArgs.contains a ||
    unsafeRipgrepOptionsWithArgs.any (fun o => a == o || (o ++ ['=']).isPrefixOf a)

/-- The strict `sed -n {N|M,N}p [FILE]` test (lines 206-219). -/
def sedStrictOk (cmd : Argv) : Bool :=
  let hasDashN := cmd[1]? == some (S "-n")
  let validRange := isValidSedNArg cmd[2]?
  if hasDashN && validRange then
    if cmd.length = 3 then true
    else if cmd.length = 4 then (cmd[3]?.map List.isEmpty) == some false
    else false
  else false

/-- The flag-walking loop of `sed_flags_whitelisted` (lines 282-377),
traversing `command[1..]` and tracking whether `-e`/`--expression` was seen. -/
def sedFlagsAux (sawExpression : Bool) : Argv → Bool
  | [] => sawExpression
  | tok :: rest =>
    if !((S "-").isPrefixOf tok) then sedFlagsAux sawExpression rest
    else if tok == S "-i" || (S "-i").isPrefixOf tok ||
        (S "--in-place").isPrefixOf tok then false
    else if tok == S "-f" || tok == S "--file" ||
        (S "--file=").isPrefixOf tok then false
    else if tok == S "-e" || tok == S "--expression" ||
        (S "--expression=").isPrefixOf tok then
      if tok == S "-e" then
        match rest with
        | [] => false
        | _ :: rest2 => sedFlagsAux true rest2
      else sedFlagsAux true rest
    else if tok == S "-l" || tok == S "--line-length" ||
        (S "--line-length=").isPrefixOf tok then
      if tok == S "-l" || tok == S "--line-length" then
        match rest with
        | [] => false
        | v :: rest2 =>
          if v.all Char.isDigit then sedFlagsAux sawExpression rest2 else false
      else
        match splitAtFirstChar '=' tok with
        | some (_, num) =>
          if num.isEmpty || !(num.all Char.isDigit) then false
          else sedFlagsAux sawExpression rest
        | none => false
    else if tok == S "--quiet" || tok == S "--silent" ||
        tok == S "--regexp-extended" || tok == S "--unbuffered" ||
        tok == S "--null-data" then sedFlagsAux sawExpression rest
    else if (S "-").isPrefixOf tok && tok.length > 1 then
      if (tok.drop 1).all (fun ch =>
          ch = 'n' || ch = 'E' || ch = 'r' || ch = 'u' || ch = 's' || ch = 'z')
      then sedFlagsAux sawExpression rest
      else false
    else false

/-- `sed_flags_whitelisted` (lines 275-381). -/
def sedFlagsWhitelisted (cmd : Argv) : Bool := sedFlagsAux false (cmd.drop 1)

/-- The head dispatch of `is_safe_to_call_with_exec` (lines 122-233): the
connector-free case, matching on the program name. -/
def safeExecDispatch (cmd : Argv) : Bool :=
  match cmd.head? with
  | none => false
  | some h =>
    if [S "cat", S "cd", S "echo", S "false", S "grep", S "head", S "ls",
        S "nl", S "pwd", S "tail", S "true", S "wc", S "which"].contains h
    then true
    else if h == S "find" then !(cmd.any (fun a => unsafeFindOptions.contains a))
    else if h == S "rg" then !(cmd.any rgUnsafeArg)
    else if h == S "git" then
      (match cmd[1]? with
       | some sub =>
         [S "branch", S "status", S "log", S "diff", S "show"].contains sub
       | none => false)
    else if h == S "cargo" then cmd[1]? == some (S "check")
    else if h == S "bazel" then
      (match cmd[1]? with
       | some sub => [S "query", S "aquery", S "cquery", S "info"].contains sub
       | none => false)
    else if h == S "sed" then
      (if sedStrictOk cmd then true else sedFlagsWhitelisted cmd)
    else false

/-- `is_safe_to_call_with_exec` (lines 88-234), fuelled.  The recursion only
descends into connector-free parts of the operator split, so it bottoms out
after one round; the wrapper's fuel is ample. -/
def seF : Nat → Argv → Bool
  | 0, _ => false
  | fuel + 1, cmd =>
    if cmd.any connectorTok then
      if cmd.any redirectTok then false
      else
        let parts := splitOnSeps connectorTok cmd
        !parts.isEmpty && parts.all (seF fuel)
    else safeExecDispatch cmd

/-- `is_safe_to_call_with_exec`. -/
def isSafeToCallWithExec (cmd : Argv) : Bool := seF (cmd.length + 2) cmd

/-! #### The `bash -lc` read-only-with-assignments fallback (lines 385-529) -/

/-- Locate the first `$(` occurrence: the part before it and the part after
it (`s.find("$(")` of line 389). -/
def sdp : Str → Option (Str × Str)
  | '$' :: '(' :: rest => some ([], rest)
  | c :: rest => (sdp rest).map (fun p => (c :: p.1, p.2))
  | [] => none

/-- The nested-paren matcher of lines 390-407: scan at the given depth for
the closing parenthesis, returning the inner text and the remainder. -/
def scanParen (depth : Nat) : Str → Option (Str × Str)
  | [] => none
  | c :: rest =>
    if c = '(' then (scanParen (depth + 1) rest).map (fun p => ('(' :: p.1, p.2))
    else if c = ')' then
      if depth = 1 then some ([], rest)
      else (scanParen (depth - 1) rest).map (fun p => (')' :: p.1, p.2))
    else (scanParen depth rest).map (fun p => (c :: p.1, p.2))

/-- The `$( … )` elision loop of `is_bash_read_only_with_assignments`
(lines 387-417), fuelled: every iteration removes at least one `(`
character (the replacement `SUBST` contains none), so the `(`-count bounds
the iterations.  `none` is the source's `return false`. -/
def elideF : Nat → Str → Option Str
  | 0, _ => none
  | fuel + 1, s =>
    match sdp s with
    | none => some s
    | some (pre, rest) =>
      match scanParen 1 rest with
      | none => none
      | some (inner, after) =>
        let innerTokens := shlexSplitSafe (trimStr inner)
        if innerTokens.isEmpty || !isSafeToCallWithExec innerTokens then none
        else elideF fuel (pre ++ S "SUBST" ++ after)

/-- The elision loop with its sufficient fuel. -/
def elideSubstitutions (s : Str) : Option Str :=
  elideF (s.countP (fun c => c = '(') + 1) s

/-- Rust `s.replace("&&", "")` (used to mask `&&` before scanning for a
standalone `&`, line 424). -/
def removeAmpAmp : Str → Str
  | '&' :: '&' :: rest => removeAmpAmp rest
  | c :: rest => c :: removeAmpAmp rest
  | [] => []

/-- A valid shell identifier: `[A-Za-z_][A-Za-z0-9_]*` rendered as the
`enumerate`-based check of lines 462-468 (vacuously true on empty input,
whose emptiness is checked separately, as in the source). -/
def identOk : Str → Bool
  | [] => true
  | c :: rest =>
    (c.isAlpha || c = '_') && rest.all (fun ch => ch.isAlphanum || ch = '_')

/-- `is_pure_assignment` (lines 459-475). -/
def isPureAssignment (s : Str) : Bool :=
  match splitAtFirstChar '=' s with
  | none => false
  | some (name, value) =>
    if identOk name && !name.isEmpty then
      !(name.contains ' ') && !value.isEmpty && !(s.contains ' ')
    else false

/-- `has_assignment_prefix` (lines 477-485): a `NAME=value <rest>` pattern. -/
def hasAssignmentHead (s : Str) : Bool :=
  match splitAtFirstChar ' ' s with
  | some (head, _) => isPureAssignment head
  | none => false

/-- `is_bash_read_only_with_assignments` (lines 385-457). -/
def isBashReadOnlyWithAssignments (script : Str) : Bool :=
  match elideSubstitutions script with
  | none => false
  | some s =>
    if s.contains bquote || s.contains '<' || s.contains '>' ||
        s.contains lbrace || s.contains rbrace then false
    else if (removeAmpAmp s).contains '&' then false
    else
      let segments := splitOnShellOperators s
      if segments.isEmpty then false
      else segments.all (fun seg =>
        let trimmed := trimStr seg
        if trimmed.isEmpty then true
        else if isPureAssignment trimmed then true
        else if hasAssignmentHead trimmed then false
        else
          let tokens := shlexSplitSafe trimmed
          !tokens.isEmpty && isSafeToCallWithExec tokens)

/-! #### The safety entry point and the PowerShell read-only check

`is_known_safe_command` (lines 8-86) and `is_powershell_read_only_script`
(lines 380-503) are mutually recursive (external commands found inside a
PowerShell script are vetted through `is_known_safe_command`).  They are
rendered as one fuel-indexed function over a sum type; the termination
theorems below prove that the wrappers' fuel choices are sufficient, i.e.
the fuel never runs out. -/

/-- The fuel measure of an argv: total character count plus token count. -/
def alist (cmd : Argv) : Nat := cmd.foldr (fun t acc => t.length + 1 + acc) 0

/-- The `MUTATING_HINTS` of the Get-Content fallback (lines 57-64). -/
def psMutatingHints : List Str :=
  [S "remove-item", S "set-content", S "add-content", S "new-item",
   S ">>", S ">"]

/-- Is a summary record read-only (`Read`/`ListFiles`/`Search`, lines
71-78)? -/
def isReadOnlyRecord : ParsedCommand → Bool
  | .read _ _ _ => true
  | .listFiles _ _ => true
  | .search _ _ _ => true
  | .unknown _ => false

/-- The plain-commands acceptance gate of `is_known_safe_command`
(lines 27-34): the modelled bash parser yields a non-empty word-only command
sequence whose commands are all individually safe. -/
def bashLcPlainGate (command : Argv) : Bool :=
  match parseBashLcPlainCommands command with
  | some allCommands =>
    !allCommands.isEmpty && allCommands.all isSafeToCallWithExec
  | none => false

/-- The read-only-with-assignments gate of `is_known_safe_command`
(lines 39-45). -/
def bashLcReadOnlyGate (command : Argv) : Bool :=
  match command with
  | [shell, flag, script] =>
    (shell == S "bash" || shell == S "zsh") && flag == S "-lc" &&
      isBashReadOnlyWithAssignments script
  | _ => false

/-- `is_known_safe_command` (`.inl`, non-Windows configuration: the Windows
allowlist block of lines 9-15 is compiled out) and
`is_powershell_read_only_script` (`.inr`), fuelled. -/
def safetyF : Nat → Argv ⊕ Str → Bool
  | 0, _ => false
  | fuel + 1, .inl command =>
    if isSafeToCallWithExec command then true
    else if bashLcPlainGate command then true
    else if bashLcReadOnlyGate command then true
    else
      match tryExtractPowershellCommandScript command with
      | some script =>
        if safetyF fuel (.inr script) then true
        else
          let lower := lowerStr script
          if isSubstrOf (S "get-content") lower &&
              !(psMutatingHints.any (fun h => isSubstrOf h lower)) then true
          else
            match parsePowershellCommands command with
            | some parsed => parsed.all isReadOnlyRecord
            | none => false
      | none => false
  | fuel + 1, .inr script =>
    let lowerScript := lowerStr script
    if containsBannedSubstring script then false
    else
      match psSegmentScan (splitTopLevelSegments script) with
      | none => false
      | some externalCmds =>
        if !externalCmds.isEmpty then
          let filtered := externalCmds.filter (fun cmd =>
            !((cmd.head?.map (fun h => eqIgnoreCase h (S "type"))).getD false))
          if filtered.isEmpty then true
          else filtered.all (fun cmd => safetyF fuel (.inl cmd))
        else if isSubstrOf (S "get-content") lowerScript ||
            psMentionsTypeCmd lowerScript then true
        else psAllowlistAllowed script

/-- `is_known_safe_command`: the public safety entry point (`is_known_safe`
in the specification). -/
def isKnownSafeCommand (command : Argv) : Bool :=
  safetyF (2 * alist command + 1) (.inl command)

/-- `is_powershell_read_only_script`. -/
def isPowershellReadOnlyScript (script : Str) : Bool :=
  safetyF (2 * (script.length + 1) + 1) (.inr script)

/-! ## Helper lemmas -/

theorem dedupConsecAux_chain (l : List ParsedCommand) :
    ∀ prev, List.Chain' (fun a b => a ≠ b) (prev :: dedupConsecAux prev l) := by
  induction l with
  | nil => intro prev; simp [dedupConsecAux]
  | cons c rest ih =>
    intro prev
    rw [dedupConsecAux]
    by_cases h : c = prev
    · simpa [h] using ih prev
    · rw [if_neg h, List.chain'_cons]
      exact ⟨fun hc => h hc.symm, ih c⟩

theorem positionAux_lt_length {α : Type} (p : α → Bool) :
    ∀ (l : List α) (i : Nat), positionAux p l = some i → i < l.length := by
  intro l
  induction l with
  | nil => intro i h; simp [positionAux] at h
  | cons a rest ih =>
    intro i h
    rw [positionAux] at h
    by_cases hp : p a
    · rw [if_pos hp] at h
      injection h with h
      simp [← h]
    · rw [if_neg hp] at h
      obtain ⟨j, hj, rfl⟩ := Option.map_eq_some'.mp h
      have := ih j hj
      simp only [List.length_cons]
      omega

theorem takeDrop_length {α : Type} (l : List α) (i : Nat) (h : i < l.length) :
    (l.take i ++ l.drop (i + 1)).length + 1 = l.length := by
  simp only [List.length_append, List.length_take, List.length_drop]
  omega

theorem simplifyOnce_some_length {l l' : List ParsedCommand}
    (h : simplifyOnce l = some l') : l'.length + 1 = l.length ∧ 2 ≤ l.length := by
  unfold simplifyOnce at h
  by_cases hlen : l.length ≤ 1
  · rw [if_pos hlen] at h; exact absurd h (by simp)
  · rw [if_neg hlen] at h
    refine ⟨?_, by omega⟩
    dsimp only at h
    split at h
    · -- rule1 fired
      rename_i r hr
      injection h with h
      subst h
      split at hr
      · rename_i pc rest
        split at hr
        · injection hr with hr; subst hr; simp
        · exact absurd hr (by simp)
      · exact absurd hr (by simp)
    · -- rule1 none
      split at h
      · rename_i r hr
        injection h with h
        subst h
        split at hr
        · rename_i idx hidx
          split at hr
          · injection hr with hr
            subst hr
            rename_i hgt
            exact takeDrop_length l idx (by omega)
          · exact absurd hr (by simp)
        · exact absurd hr (by simp)
      · split at h
        · rename_i r hr
          injection h with h
          subst h
          split at hr
          · rename_i idx hidx
            injection hr with hr
            subst hr
            exact takeDrop_length l idx (positionAux_lt_length _ l idx hidx)
          · exact absurd hr (by simp)
        · split at h
          · rename_i idx hidx
            injection h with h
            subst h
            exact takeDrop_length l idx (positionAux_lt_length _ l idx hidx)
          · exact absurd h (by simp)

theorem simplifyFuelled_fixpoint :
    ∀ (f : Nat) (l : List ParsedCommand), l.length < f →
      simplifyOnce (simplifyFuelled f l) = none := by
  intro f
  induction f with
  | zero => intro l h; omega
  | succ n ih =>
    intro l h
    rw [simplifyFuelled]
    cases hs : simplifyOnce l with
    | none => exact hs
    | some next =>
      have hlen := simplifyOnce_some_length hs
      exact ih next (by omega)

theorem simplifyFuelled_ne_nil :
    ∀ (f : Nat) (l : List ParsedCommand), l ≠ [] → simplifyFuelled f l ≠ [] := by
  intro f
  induction f with
  | zero => intro l h; simpa [simplifyFuelled] using h
  | succ n ih =>
    intro l h
    rw [simplifyFuelled]
    cases hs : simplifyOnce l with
    | none => exact h
    | some next =>
      apply ih
      have hlen := simplifyOnce_some_length hs
      have : 0 < next.length := by omega
      exact List.ne_nil_of_length_pos this

theorem dedupConsec_ne_nil (l : List ParsedCommand) (h : l ≠ []) :
    dedupConsec l ≠ [] := by
  cases l with
  | nil => exact absurd rfl h
  | cons c rest => simp [dedupConsec]

theorem buildCommands_ne_nil :
    ∀ (parts : List Argv) (cwd : Option Str),
      (∃ p ∈ parts, (p.head? == some (S "cd")) = false) →
      buildCommandsWithCwd cwd parts ≠ [] := by
  intro parts
  induction parts with
  | nil => intro cwd h; simp at h
  | cons tokens rest ih =>
    intro cwd h
    rw [buildCommandsWithCwd]
    by_cases hcd : (tokens.head? == some (S "cd")) = true
    · rw [if_pos hcd]
      apply ih
      obtain ⟨p, hp, hne⟩ := h
      rcases List.mem_cons.mp hp with rfl | hmem
      · rw [hcd] at hne; exact absurd hne (by simp)
      · exact ⟨p, hmem, hne⟩
    · rw [if_neg hcd]
      exact List.cons_ne_nil _ _

theorem simplifyToFixpoint_ne_nil (l : List ParsedCommand) (h : l ≠ []) :
    simplifyToFixpoint l ≠ [] := simplifyFuelled_ne_nil _ l h

theorem dedupConsec_chain (l : List ParsedCommand) :
    List.Chain' (fun a b => a ≠ b) (dedupConsec l) := by
  cases l with
  | nil => simp [dedupConsec]
  | cons c rest => rw [dedupConsec]; exact dedupConsecAux_chain rest c

theorem length_add_two (cmd : Argv) : cmd.length + 2 = cmd.length + 1 + 1 := rfl

theorem seF_conn_redirect (f : Nat) (cmd : Argv)
    (hc : cmd.any connectorTok = true) (hr : cmd.any redirectTok = true) :
    seF (f + 1) cmd = false := by
  simp [seF, hc, hr]

theorem isSafeToCallWithExec_conn_redirect (cmd : Argv)
    (hc : cmd.any connectorTok = true) (hr : cmd.any redirectTok = true) :
    isSafeToCallWithExec cmd = false := by
  rw [isSafeToCallWithExec, length_add_two]
  exact seF_conn_redirect _ _ hc hr

theorem seF_noconn (f : Nat) (cmd : Argv) (h : cmd.any connectorTok = false) :
    seF (f + 1) cmd = safeExecDispatch cmd := by
  simp [seF, h]

theorem isSafeToCallWithExec_noconn (cmd : Argv)
    (h : cmd.any connectorTok = false) :
    isSafeToCallWithExec cmd = safeExecDispatch cmd := by
  rw [isSafeToCallWithExec, length_add_two]
  exact seF_noconn _ _ h

theorem connector_ne_redirect (t : Str) (hc : connectorTok t = true)
    (hr : redirectTok t = true) : False := by
  simp only [connectorTok, Bool.or_eq_true, beq_iff_eq] at hc
  rcases hc with ((rfl | rfl) | rfl) | rfl <;> exact absurd hr (by decide)

theorem tryExtract_none_of_head (cmd : Argv)
    (h : ∀ hd, cmd.head? = some hd → isPsExe hd = false) :
    tryExtractPowershellCommandScript cmd = none := by
  cases cmd with
  | nil => rfl
  | cons p rest => simp [tryExtractPowershellCommandScript, h p rfl]

theorem gates_false_of_conn_redirect (cmd : Argv)
    (hr : ∃ t ∈ cmd, redirectTok t = true)
    (hc : ∃ t ∈ cmd, connectorTok t = true) :
    parseBashLcPlainCommands cmd = none ∧ bashLcReadOnlyGate cmd = false := by
  match cmd with
  | [] => exact ⟨rfl, rfl⟩
  | [a] => exact ⟨rfl, rfl⟩
  | [a, b] => exact ⟨rfl, rfl⟩
  | a :: b :: c :: d :: rest => exact ⟨rfl, rfl⟩
  | [a, b, c] =>
    by_cases hsh : (a == S "bash" || a == S "zsh") = true
    · by_cases hfl : (b == S "-lc") = true
      · exfalso
        simp only [Bool.or_eq_true, beq_iff_eq] at hsh
        have hb : b = S "-lc" := by simpa using hfl
        obtain ⟨t, ht, htr⟩ := hr
        obtain ⟨u, hu, huc⟩ := hc
        have htc : t = c := by
          simp only [List.mem_cons, List.not_mem_nil, or_false] at ht
          rcases ht with rfl | rfl | rfl
          · rcases hsh with rfl | rfl <;> exact absurd htr (by decide)
          · rw [hb] at htr; exact absurd htr (by decide)
          · rfl
        have huc' : u = c := by
          simp only [List.mem_cons, List.not_mem_nil, or_false] at hu
          rcases hu with rfl | rfl | rfl
          · rcases hsh with rfl | rfl <;> exact absurd huc (by decide)
          · rw [hb] at huc; exact absurd huc (by decide)
          · rfl
        exact connector_ne_redirect c (huc' ▸ huc) (htc ▸ htr)
      · constructor
        · simp only [parseBashLcPlainCommands]
          rw [if_neg]
          simp only [Bool.and_eq_true, not_and]
          intro _ hb
          exact hfl hb
        · simp only [bashLcReadOnlyGate]
          rw [Bool.and_eq_false_iff]
          left
          rw [Bool.and_eq_false_iff]
          right
          simpa using hfl
    · constructor
      · simp only [parseBashLcPlainCommands]
        rw [if_neg]
        simp only [Bool.and_eq_true, not_and]
        intro ha
        exact absurd ha hsh
      · simp only [bashLcReadOnlyGate]
        rw [Bool.and_eq_false_iff]
        left
        rw [Bool.and_eq_false_iff]
        left
        simpa using hsh

theorem parseBashLcPlain_none_of_head (cmd : Argv) (hd : Str)
    (hh : cmd.head? = some hd)
    (hno : (hd == S "bash" || hd == S "zsh") = false) :
    parseBashLcPlainCommands cmd = none := by
  rcases cmd with _ | ⟨a, _ | ⟨b, _ | ⟨c, _ | ⟨d, rest⟩⟩⟩⟩
  · simp at hh
  · rfl
  · rfl
  · have ha : a = hd := by simpa using hh
    subst ha
    simp [parseBashLcPlainCommands, hno]
  · rfl

theorem bashLcReadOnlyGate_false_of_head (cmd : Argv) (hd : Str)
    (hh : cmd.head? = some hd)
    (hno : (hd == S "bash" || hd == S "zsh") = false) :
    bashLcReadOnlyGate cmd = false := by
  rcases cmd with _ | ⟨a, _ | ⟨b, _ | ⟨c, _ | ⟨d, rest⟩⟩⟩⟩
  · simp at hh
  · rfl
  · rfl
  · have ha : a = hd := by simpa using hh
    subst ha
    simp [bashLcReadOnlyGate, hno]
  · rfl

theorem isKnownSafe_eq_exec_of_head (cmd : Argv) (hd : Str)
    (hh : cmd.head? = some hd)
    (hno : (hd == S "bash" || hd == S "zsh") = false)
    (hps : isPsExe hd = false) :
    isKnownSafeCommand cmd = isSafeToCallWithExec cmd := by
  have hplain := parseBashLcPlain_none_of_head cmd hd hh hno
  have hgate1 : bashLcPlainGate cmd = false := by simp [bashLcPlainGate, hplain]
  have hgate2 := bashLcReadOnlyGate_false_of_head cmd hd hh hno
  have hex : tryExtractPowershellCommandScript cmd = none := by
    apply tryExtract_none_of_head
    intro h' hh'
    rw [hh] at hh'
    injection hh' with e
    rw [← e]
    exact hps
  unfold isKnownSafeCommand
  rw [safetyF]
  cases hexec : isSafeToCallWithExec cmd
  · simp [hexec, hgate1, hgate2, hex]
  · simp [hexec]

theorem safeExecDispatch_rg (cmd : Argv) (hh : cmd.head? = some (S "rg")) :
    safeExecDispatch cmd = !(cmd.any rgUnsafeArg) := by
  rw [safeExecDispatch, hh]
  rfl

theorem safeExecDispatch_sed (cmd : Argv) (hh : cmd.head? = some (S "sed")) :
    safeExecDispatch cmd =
      (if sedStrictOk cmd then true else sedFlagsWhitelisted cmd) := by
  rw [safeExecDispatch, hh]
  rfl

/-! ## Claim theorems -/

/-- C1 counterexample: the argv `["ls", ">", "out.txt"]` contains the token
`>` yet `is_known_safe` returns true (redirect tokens are only rejected when
a pipeline/connector token is also present, and this argv has none), so the
claim as stated is false. -/
theorem C1_counterexample :
    (S ">") ∈ [S "ls", S ">", S "out.txt"] ∧
    redirectTok (S ">") = true ∧
    isKnownSafeCommand [S "ls", S ">", S "out.txt"] = true := by
  exact ⟨by decide, by decide, by decide⟩

/-- C1 (amended): for every argv that contains a token equal to `>`, `>>`,
`<` or `|&` and also contains a pipeline/connector token (`|`, `&&`, `||`,
`;`), and whose first element is not a PowerShell program name,
`is_known_safe` returns false.  (Without a connector token the redirect scan
of `is_safe_to_call_with_exec` never runs, and a PowerShell head can hide
the offending tokens behind the extracted `-Command` script.) -/
theorem C1_redirect_with_connector_reject (command : Argv)
    (hr : ∃ t ∈ command, redirectTok t = true)
    (hc : ∃ t ∈ command, connectorTok t = true)
    (hps : ∀ hd, command.head? = some hd → isPsExe hd = false) :
    isKnownSafeCommand command = false := by
  have hanyc : command.any connectorTok = true := List.any_eq_true.mpr hc
  have hanyr : command.any redirectTok = true := List.any_eq_true.mpr hr
  have hexec := isSafeToCallWithExec_conn_redirect command hanyc hanyr
  obtain ⟨hplain, hgate2⟩ := gates_false_of_conn_redirect command hr hc
  have hgate1 : bashLcPlainGate command = false := by
    simp [bashLcPlainGate, hplain]
  have hextract := tryExtract_none_of_head command hps
  unfold isKnownSafeCommand
  rw [safetyF]
  simp [hexec, hgate1, hgate2, hextract]

/-- C1 witness: the amended claim applied to `["ls", ">", ";"]`. -/
theorem C1_witness :
    (∃ t ∈ [S "ls", S ">", S ";"], redirectTok t = true) ∧
    (∃ t ∈ [S "ls", S ">", S ";"], connectorTok t = true) ∧
    isKnownSafeCommand [S "ls", S ">", S ";"] = false := by
  refine ⟨by decide, by decide, ?_⟩
  exact C1_redirect_with_connector_reject [S "ls", S ">", S ";"]
    (by decide) (by decide) (by decide)

theorem psAllowlist_false_of_bad (script : Str)
    (h : ∃ t ∈ psScanTokens script, psCmdletCandidate t = true ∧
         psAllowedCmdlets.contains (lowerStr t) = false) :
    psAllowlistAllowed script = false := by
  obtain ⟨t, ht, hcand, hmem⟩ := h
  rw [psAllowlistAllowed, List.all_eq_false]
  refine ⟨t, ht, ?_⟩
  rw [hcand, hmem]
  decide

/-- C2 counterexample: for the script `Get-Content foo.txt; Get-Date` the
segment analysis finds only cmdlet tokens and the hyphenated token
`Get-Date` is not in the allowlist, yet `is_known_safe` returns true for the
corresponding `pwsh -Command` argv: the Get-Content fallback of
`is_powershell_read_only_script` precedes the cmdlet-allowlist scan.  The
claim as stated is therefore false. -/
theorem C2_counterexample :
    psSegmentScan (splitTopLevelSegments (S "Get-Content foo.txt; Get-Date")) =
      some [] ∧
    (∃ t ∈ psScanTokens (S "Get-Content foo.txt; Get-Date"),
      psCmdletCandidate t = true ∧
      psAllowedCmdlets.contains (lowerStr t) = false) ∧
    isKnownSafeCommand
      [S "pwsh", S "-Command", S "Get-Content foo.txt; Get-Date"] = true := by
  exact ⟨by decide, by decide, by decide⟩

/-- C2 (amended): for every PowerShell script in which the segment analysis
finds only cmdlet/alias/keyword tokens (no external commands and no banned
aliases), if some hyphenated token of the allowlist scan is not in the
cmdlet allowlist AND the script does not contain `get-content`
(case-insensitively) and is not a `type` pattern, then
`is_powershell_read_only_script` returns false.  (`is_known_safe` itself may
still answer true through its later summary-based fallbacks, which the
original claim overlooked.) -/
theorem C2_allowlist_reject (script : Str)
    (hseg : psSegmentScan (splitTopLevelSegments script) = some [])
    (hgc : isSubstrOf (S "get-content") (lowerStr script) = false)
    (hty : psMentionsTypeCmd (lowerStr script) = false)
    (hbad : ∃ t ∈ psScanTokens script, psCmdletCandidate t = true ∧
            psAllowedCmdlets.contains (lowerStr t) = false) :
    isPowershellReadOnlyScript script = false := by
  unfold isPowershellReadOnlyScript
  rw [safetyF]
  by_cases hb : containsBannedSubstring script = true
  · simp [hb]
  · have hb' : containsBannedSubstring script = false := by
      simpa using hb
    simp [hb', hseg, hgc, hty, psAllowlist_false_of_bad script hbad]

/-- C2 witness: the amended claim applied to the script `Get-Date`. -/
theorem C2_witness :
    psSegmentScan (splitTopLevelSegments (S "Get-Date")) = some [] ∧
    (∃ t ∈ psScanTokens (S "Get-Date"), psCmdletCandidate t = true ∧
      psAllowedCmdlets.contains (lowerStr t) = false) ∧
    isPowershellReadOnlyScript (S "Get-Date") = false := by
  refine ⟨by decide, by decide, ?_⟩
  exact C2_allowlist_reject (S "Get-Date")
    (by decide) (by decide) (by decide) (by decide)

/-- C8: for every argv, the sequence returned by `parse_command` contains no
two consecutive structurally equal records. -/
theorem C8_no_consecutive_duplicates (command : Argv) :
    List.Chain' (fun a b => a ≠ b) (parseCommand command) :=
  dedupConsec_chain (parseCommandImpl command)

/-- C9: the summary simplifier run to fixpoint is idempotent — applying it
twice yields the same sequence as applying it once. -/
theorem C9_simplifier_idempotent (records : List ParsedCommand) :
    simplifyToFixpoint (simplifyToFixpoint records) = simplifyToFixpoint records := by
  have hfix := simplifyFuelled_fixpoint (records.length + 1) records (by omega)
  unfold simplifyToFixpoint
  rw [simplifyFuelled, hfix]

/-- C3 counterexample: for the argv `["cd", "foo"]` the claim demands at
least one intent record, but `parse_command` returns the empty sequence (the
`cd` segment only updates the virtual cwd and emits nothing). -/
theorem C3_counterexample : parseCommand [S "cd", S "foo"] = [] := by decide

/-- C3 (amended): `parse_command` returns at least one record whenever some
connector-split segment of the normalized argv is not headed by `cd` (and the
argv is not of the bash/PowerShell/cmd special shapes handled separately);
argvs whose segments are all `cd`-headed or empty may yield the empty
sequence. -/
theorem C3_parse_nonempty (command : Argv)
    (h1 : parseBashLcCommands command = none)
    (h2 : parsePowershellCommands command = none)
    (h3 : parseCmdExeCommands command = none)
    (h4 : ∃ p ∈ (if (normalizeTokens command).any connectorTok then
                   splitOnSeps connectorTok (normalizeTokens command)
                 else [normalizeTokens command]),
          (p.head? == some (S "cd")) = false) :
    parseCommand command ≠ [] := by
  unfold parseCommand parseCommandImpl
  rw [h1, h2, h3]
  apply dedupConsec_ne_nil
  apply simplifyToFixpoint_ne_nil
  exact buildCommands_ne_nil _ none h4

/-- C3 witness: the amended claim applied to the argv `["foo"]`. -/
theorem C3_witness :
    parseBashLcCommands [S "foo"] = none ∧
    parsePowershellCommands [S "foo"] = none ∧
    parseCmdExeCommands [S "foo"] = none ∧
    parseCommand [S "foo"] ≠ [] := by
  refine ⟨by decide, by decide, by decide, ?_⟩
  exact C3_parse_nonempty [S "foo"] (by decide) (by decide) (by decide) (by decide)

/-- C6: for every `rg` argv (a word-only argv headed by `rg`, per the
allowlist context of §4.B), `is_known_safe` returns false when any argument
equals `--search-zip` or `-z`, or equals `--pre` or `--hostname-bin`, or
starts with `--pre=` or `--hostname-bin=`; both split and glued forms are
rejected, while the unrelated prefix `--pre-` alone is not. -/
theorem C6_rg_unsafe_flags :
    (∀ command : Argv, command.head? = some (S "rg") →
      command.any connectorTok = false →
      (∃ a ∈ command, rgUnsafeArg a = true) →
      isKnownSafeCommand command = false) ∧
    isKnownSafeCommand [S "rg", S "--pre", S "foo"] = false ∧
    isKnownSafeCommand [S "rg", S "--pre=foo", S "x"] = false ∧
    isKnownSafeCommand [S "rg", S "--hostname-bin", S "h"] = false ∧
    isKnownSafeCommand [S "rg", S "--hostname-bin=h"] = false ∧
    isKnownSafeCommand [S "rg", S "--search-zip"] = false ∧
    isKnownSafeCommand [S "rg", S "-z"] = false ∧
    isKnownSafeCommand [S "rg", S "--pre-", S "foo"] = true := by
  refine ⟨?_, by decide, by decide, by decide, by decide, by decide,
    by decide, by decide⟩
  intro command hh hnoconn hbad
  rw [isKnownSafe_eq_exec_of_head command (S "rg") hh (by decide) (by decide),
    isSafeToCallWithExec_noconn command hnoconn,
    safeExecDispatch_rg command hh]
  have hany : command.any rgUnsafeArg = true := List.any_eq_true.mpr hbad
  simp [hany]

/-- C6 witness: the quantified part of C6 applied to `["rg", "--pre", "x"]`. -/
theorem C6_witness :
    ([S "rg", S "--pre", S "x"] : Argv).head? = some (S "rg") ∧
    ([S "rg", S "--pre", S "x"] : Argv).any connectorTok = false ∧
    isKnownSafeCommand [S "rg", S "--pre", S "x"] = false := by
  refine ⟨by decide, by decide, ?_⟩
  exact C6_rg_unsafe_flags.1 [S "rg", S "--pre", S "x"]
    (by decide) (by decide) (by decide)

/-- C4: for `[bash, -lc, "cd foo && cat foo.txt"]`, `is_known_safe` returns
true and `parse_command` returns exactly one record — a `Read` with cmd
`cat foo.txt`, name `foo.txt` and path `foo/foo.txt` (the `cd` segment
updates the virtual cwd prepended to the relative read path and is itself
dropped). -/
theorem C4_cd_cat_end_to_end :
    isKnownSafeCommand [S "bash", S "-lc", S "cd foo && cat foo.txt"] = true ∧
    parseCommand [S "bash", S "-lc", S "cd foo && cat foo.txt"] =
      [ParsedCommand.read (S "cat foo.txt") (S "foo.txt") (S "foo/foo.txt")] := by
  exact ⟨by decide, by decide⟩

/-- C7: for every word-only argv headed by `cat`, the per-head summariser
returns a `Read` record exactly when, after dropping an optional leading
`--`, exactly one argument remains (that argument is the positional file
operand, as the source does not distinguish flag-shaped arguments here); in
every other case it returns `Unknown`. -/
theorem C7_cat_summary (tail : Argv) :
    summarizeMainTokens (S "cat" :: tail) =
      (match (if tail.head? == some (S "--") then tail.drop 1 else tail) with
       | [p] => ParsedCommand.read (shlexJoin (S "cat" :: tail))
           (shortDisplayPath p) p
       | _ => ParsedCommand.unknown (shlexJoin (S "cat" :: tail))) := rfl

/-! ### Lemmas about `splitAtChar` for the `sed -n` range claim -/

theorem splitAtChar_ne_nil (sep : Char) : ∀ l : Str, splitAtChar sep l ≠ [] := by
  intro l
  induction l with
  | nil => simp [splitAtChar]
  | cons c rest ih =>
    rw [splitAtChar]
    by_cases hc : c = sep
    · simp [hc]
    · rw [if_neg hc]
      cases hs : splitAtChar sep rest with
      | nil => exact absurd hs ih
      | cons h t => simp

theorem splitAtChar_single {sep : Char} :
    ∀ {l x : Str}, splitAtChar sep l = [x] → l = x := by
  intro l
  induction l with
  | nil =>
    intro x h
    rw [splitAtChar] at h
    injection h with h1 h2
  | cons c rest ih =>
    intro x h
    rw [splitAtChar] at h
    by_cases hc : c = sep
    · rw [if_pos hc] at h
      injection h with h1 h2
      exact absurd h2 (splitAtChar_ne_nil sep rest)
    · rw [if_neg hc] at h
      cases hs : splitAtChar sep rest with
      | nil => exact absurd hs (splitAtChar_ne_nil sep rest)
      | cons hh tt =>
        rw [hs] at h
        injection h with h1 h2
        subst h2
        have := ih hs
        rw [← h1, this]

theorem splitAtChar_pair {sep : Char} :
    ∀ {l a b : Str}, splitAtChar sep l = [a, b] → l = a ++ sep :: b := by
  intro l
  induction l with
  | nil => intro a b h; rw [splitAtChar] at h; exact absurd h (by simp)
  | cons c rest ih =>
    intro a b h
    rw [splitAtChar] at h
    by_cases hc : c = sep
    · rw [if_pos hc] at h
      injection h with h1 h2
      have := splitAtChar_single h2
      rw [← h1, this, hc]
      rfl
    · rw [if_neg hc] at h
      cases hs : splitAtChar sep rest with
      | nil => exact absurd hs (splitAtChar_ne_nil sep rest)
      | cons hh tt =>
        rw [hs] at h
        injection h with h1 h2
        subst h2
        have := ih (by rw [hs])
        rw [← h1, List.cons_append, ← this]

theorem splitAtChar_no_sep {sep : Char} :
    ∀ {l : Str}, (∀ c ∈ l, c = sep → False) → splitAtChar sep l = [l] := by
  intro l
  induction l with
  | nil => intro _; rfl
  | cons c rest ih =>
    intro h
    rw [splitAtChar]
    rw [if_neg (h c (by simp))]
    rw [ih (fun d hd => h d (by simp [hd]))]

theorem splitAtChar_sep_pair {sep : Char} {a b : Str}
    (ha : ∀ c ∈ a, c = sep → False) (hb : ∀ c ∈ b, c = sep → False) :
    splitAtChar sep (a ++ sep :: b) = [a, b] := by
  induction a with
  | nil =>
    rw [List.nil_append, splitAtChar, if_pos rfl, splitAtChar_no_sep hb]
  | cons c rest ih =>
    rw [List.cons_append, splitAtChar]
    rw [if_neg (ha c (by simp))]
    rw [ih (fun d hd => ha d (by simp [hd]))]

theorem getLast?_decomp : ∀ (l : Str) (c : Char), l.getLast? = some c →
    l = l.dropLast ++ [c]
  | [], c, h => by simp at h
  | [a], c, h => by
    simp at h
    subst h
    rfl
  | a :: b :: rest, c, h => by
    have ih := getLast?_decomp (b :: rest) c (by simpa using h)
    calc a :: b :: rest = a :: ((b :: rest).dropLast ++ [c]) := by rw [← ih]
      _ = (a :: b :: rest).dropLast ++ [c] := by simp

theorem digit_ne_comma {c : Char} (h : c.isDigit = true) : c = ',' → False := by
  intro hc
  rw [hc] at h
  exact absurd h (by decide)

/-- The `sed -n` range regular expression `^(\d+,)?\d+p$`, stated from the
specification's words: one non-empty digit group, or two comma-separated
non-empty digit groups, followed by `p`.  (Refinement spec, to be compared
with the source's `is_valid_sed_n_arg`.) -/
def SedRangeRegex (s : Str) : Prop :=
  (∃ ds : Str, ds ≠ [] ∧ (∀ c ∈ ds, c.isDigit = true) ∧ s = ds ++ ['p']) ∨
  (∃ ds es : Str, ds ≠ [] ∧ es ≠ [] ∧ (∀ c ∈ ds, c.isDigit = true) ∧
    (∀ c ∈ es, c.isDigit = true) ∧ s = (ds ++ ',' :: es) ++ ['p'])

theorem isValidSedNArg_iff_regex (s : Str) :
    isValidSedNArg (some s) = true ↔ SedRangeRegex s := by
  constructor
  · intro h
    rw [isValidSedNArg] at h
    split at h
    · exact absurd h (by simp)
    · rename_i c hlast
      split at h
      · rename_i hc
        subst hc
        have hdecomp := getLast?_decomp s 'p' hlast
        split at h
        · rename_i num heq
          simp only [Bool.and_eq_true, Bool.not_eq_true'] at h
          obtain ⟨hne', hdig'⟩ := h
          left
          refine ⟨num, ?_, List.all_eq_true.mp hdig', ?_⟩
          · intro hx
            rw [hx] at hne'
            exact absurd hne' (by decide)
          · rw [hdecomp, splitAtChar_single heq]
        · rename_i a b heq
          simp only [Bool.and_eq_true, Bool.not_eq_true'] at h
          obtain ⟨⟨⟨hae, hbe⟩, had⟩, hbd⟩ := h
          right
          refine ⟨a, b, ?_, ?_, List.all_eq_true.mp had,
            List.all_eq_true.mp hbd, ?_⟩
          · intro hx
            rw [hx] at hae
            exact absurd hae (by decide)
          · intro hy
            rw [hy] at hbe
            exact absurd hbe (by decide)
          · rw [hdecomp, splitAtChar_pair heq]
        · exact absurd h (by simp)
      · exact absurd h (by simp)
  · intro h
    rcases h with ⟨ds, hne, hdig, rfl⟩ | ⟨ds, es, hne1, hne2, hd1, hd2, rfl⟩
    · rw [isValidSedNArg]
      simp only [List.getLast?_concat, List.dropLast_concat]
      rw [if_pos trivial,
        splitAtChar_no_sep (fun c hc => digit_ne_comma (hdig c hc))]
      simp only [Bool.and_eq_true, Bool.not_eq_true', List.all_eq_true]
      exact ⟨by simpa using hne, hdig⟩
    · rw [isValidSedNArg]
      simp only [List.getLast?_concat, List.dropLast_concat]
      rw [if_pos trivial,
        splitAtChar_sep_pair (fun c hc => digit_ne_comma (hd1 c hc))
          (fun c hc => digit_ne_comma (hd2 c hc))]
      simp only [Bool.and_eq_true, Bool.not_eq_true', List.all_eq_true]
      exact ⟨⟨⟨by simpa using hne1, by simpa using hne2⟩, hd1⟩, hd2⟩

theorem sedFlagsAux_no_expr :
    ∀ (n : Nat) (l : Argv), l.length ≤ n →
      (∀ t ∈ l, (t == S "-e") = false ∧ (t == S "--expression") = false ∧
        ((S "--expression=").isPrefixOf t) = false) →
      sedFlagsAux false l = false := by
  intro n
  induction n with
  | zero =>
    intro l hl _
    have : l = [] := List.eq_nil_of_length_eq_zero (by omega)
    rw [this]
    rfl
  | succ n ih =>
    intro l hl hyp
    match l with
    | [] => rfl
    | tok :: rest =>
      obtain ⟨h1, h2, h3⟩ := hyp tok (by simp)
      have hrest : ∀ t ∈ rest, (t == S "-e") = false ∧
          (t == S "--expression") = false ∧
          ((S "--expression=").isPrefixOf t) = false :=
        fun t ht => hyp t (by simp [ht])
      have hlen : rest.length ≤ n := by
        simp only [List.length_cons] at hl
        omega
      rw [sedFlagsAux.eq_def]
      dsimp only
      split
      · exact ih rest hlen hrest
      · split
        · rfl
        · split
          · rfl
          · split
            · rename_i hD
              rw [h1, h2, h3] at hD
              exact absurd hD (by simp)
            · split
              · split
                · -- `-l` / `--line-length` consuming the next argument
                  cases rest with
                  | nil => rfl
                  | cons v rest2 =>
                    have hlen2 : rest2.length ≤ n := by
                      simp only [List.length_cons] at hlen
                      omega
                    have hrest2 : ∀ t ∈ rest2, (t == S "-e") = false ∧
                        (t == S "--expression") = false ∧
                        ((S "--expression=").isPrefixOf t) = false :=
                      fun t ht => hrest t (by simp [ht])
                    dsimp only
                    split
                    · exact ih rest2 hlen2 hrest2
                    · rfl
                · -- `--line-length=N`
                  cases hsp : splitAtFirstChar '=' tok with
                  | none => rfl
                  | some p =>
                    obtain ⟨pa, pb⟩ := p
                    dsimp only
                    split
                    · rfl
                    · exact ih rest hlen hrest
              · split
                · exact ih rest hlen hrest
                · split
                  · split
                    · exact ih rest hlen hrest
                    · rfl
                  · rfl

/-- C5: the `sed -n` range validator accepts exactly the strings matching
`^(\d+,)?\d+p$` (the refinement spec `SedRangeRegex`); it accepts `12p` and
`1,200p` and rejects `p`, `+10p`, `xp` and the empty string; consequently a
connector-free `sed -n` argv with an invalid range and no whitelisted
`-e`/`--expression` flag is classified unsafe. -/
theorem C5_sed_range_validator :
    (∀ s : Str, isValidSedNArg (some s) = true ↔ SedRangeRegex s) ∧
    isValidSedNArg (some (S "12p")) = true ∧
    isValidSedNArg (some (S "1,200p")) = true ∧
    isValidSedNArg (some (S "p")) = false ∧
    isValidSedNArg (some (S "+10p")) = false ∧
    isValidSedNArg (some (S "xp")) = false ∧
    isValidSedNArg (some (S "")) = false ∧
    (∀ (r : Str) (rest : Argv), isValidSedNArg (some r) = false →
      (∀ t ∈ r :: rest, connectorTok t = false ∧ (t == S "-e") = false ∧
        (t == S "--expression") = false ∧
        ((S "--expression=").isPrefixOf t) = false) →
      isKnownSafeCommand (S "sed" :: S "-n" :: r :: rest) = false) := by
  refine ⟨isValidSedNArg_iff_regex, by decide, by decide, by decide, by decide,
    by decide, by decide, ?_⟩
  intro r rest hinv hcl
  have hh : (S "sed" :: S "-n" :: r :: rest).head? = some (S "sed") := rfl
  have hnoconn : (S "sed" :: S "-n" :: r :: rest).any connectorTok = false := by
    rw [List.any_eq_false]
    intro x hx
    simp only [List.mem_cons] at hx
    rcases hx with rfl | rfl | hx
    · decide
    · decide
    · have := (hcl x (List.mem_cons.mpr (by tauto))).1
      simp [this]
  rw [isKnownSafe_eq_exec_of_head _ (S "sed") hh (by decide) (by decide),
    isSafeToCallWithExec_noconn _ hnoconn,
    safeExecDispatch_sed _ hh]
  have hstrict : sedStrictOk (S "sed" :: S "-n" :: r :: rest) = false := by
    rw [sedStrictOk]
    have h2 : (S "sed" :: S "-n" :: r :: rest)[2]? = some r := by simp
    rw [h2, hinv]
    simp
  have hflags : sedFlagsWhitelisted (S "sed" :: S "-n" :: r :: rest) = false := by
    rw [sedFlagsWhitelisted]
    have hdrop : (S "sed" :: S "-n" :: r :: rest).drop 1 = S "-n" :: r :: rest :=
      rfl
    rw [hdrop]
    apply sedFlagsAux_no_expr (rest.length + 2) _ (by simp)
    intro t ht
    simp only [List.mem_cons] at ht
    rcases ht with rfl | ht
    · exact ⟨by decide, by decide, by decide⟩
    · have := hcl t (List.mem_cons.mpr (by tauto))
      exact ⟨this.2.1, this.2.2.1, this.2.2.2⟩
  rw [hstrict, hflags]
  simp

/-- C5 witness: the unsafe-consequence part of C5 applied to
`["sed", "-n", "xp"]`. -/
theorem C5_witness :
    isValidSedNArg (some (S "xp")) = false ∧
    isKnownSafeCommand [S "sed", S "-n", S "xp"] = false := by
  refine ⟨by decide, ?_⟩
  exact C5_sed_range_validator.2.2.2.2.2.2.2 (S "xp") [] (by decide) (by decide)

/-! ## Termination measures (C10)

The Rust functions terminate by well-founded measures.  The shallow
embedding renders each loop with an explicit fuel parameter; the lemmas
below prove that every recursive call strictly decreases the relevant
measure and that the fuel chosen by each wrapper is sufficient (the result
no longer depends on the fuel once it reaches the wrapper's bound). -/

theorem allCongrMem {α : Type} (l : List α) (f g : α → Bool)
    (h : ∀ x ∈ l, f x = g x) : l.all f = l.all g := by
  induction l with
  | nil => rfl
  | cons a rest ih =>
    simp only [List.all_cons]
    rw [h a (List.mem_cons_self a rest),
      ih (fun x hx => h x (List.mem_cons_of_mem a hx))]

theorem splitOnSepsAux_mem_length {α : Type} (isSep : α → Bool) :
    ∀ (l cur : List α) (p : List α), p ∈ splitOnSepsAux isSep cur l →
      p.length ≤ cur.length + l.countP (fun t => !isSep t) := by
  intro l
  induction l with
  | nil =>
    intro cur p hp
    rw [splitOnSepsAux] at hp
    split at hp
    · exact absurd hp (by simp)
    · rw [List.mem_singleton] at hp
      subst hp
      simp
  | cons t rest ih =>
    intro cur p hp
    rw [splitOnSepsAux] at hp
    by_cases hsep : isSep t = true
    · rw [if_pos hsep] at hp
      have hc : List.countP (fun t => !isSep t) (t :: rest) =
          List.countP (fun t => !isSep t) rest := by
        rw [List.countP_cons]
        simp [hsep]
      rw [hc]
      split at hp
      · have hb := ih [] p hp
        simp only [List.length_nil, Nat.zero_add] at hb
        omega
      · rcases List.mem_cons.mp hp with rfl | hmem
        · exact Nat.le_add_right _ _
        · have hb := ih [] p hmem
          simp only [List.length_nil, Nat.zero_add] at hb
          omega
    · rw [if_neg hsep] at hp
      have hb := ih (cur ++ [t]) p hp
      rw [List.length_append] at hb
      have hc : List.countP (fun t => !isSep t) (t :: rest) =
          List.countP (fun t => !isSep t) rest + 1 := by
        rw [List.countP_cons]
        simp [hsep]
      simp only [List.length_singleton] at hb
      omega

theorem splitOnSeps_mem_lt (cmd : Argv) (hconn : cmd.any connectorTok = true) :
    ∀ p ∈ splitOnSeps connectorTok cmd, p.length < cmd.length := by
  intro p hp
  have h1 := splitOnSepsAux_mem_length connectorTok cmd [] p hp
  have h2 : 0 < cmd.countP connectorTok := by
    rw [List.countP_pos_iff]
    obtain ⟨a, ha, hpa⟩ := List.any_eq_true.mp hconn
    exact ⟨a, ha, hpa⟩
  have h3 : ∀ (l : Argv), l.length =
      l.countP connectorTok + l.countP (fun t => !connectorTok t) := by
    intro l
    induction l with
    | nil => rfl
    | cons a rest ih =>
      rw [List.countP_cons, List.countP_cons, List.length_cons, ih]
      cases connectorTok a <;> simp <;> omega
  have h4 := h3 cmd
  simp only [List.length_nil, Nat.zero_add] at h1
  omega

theorem seF_conn_noredirect (f : Nat) (cmd : Argv)
    (hc : cmd.any connectorTok = true) (hr : cmd.any redirectTok = false) :
    seF (f + 1) cmd = (!(splitOnSeps connectorTok cmd).isEmpty &&
      (splitOnSeps connectorTok cmd).all (seF f)) := by
  simp [seF, hc, hr]

theorem seF_suff (f : Nat) : ∀ (cmd : Argv), cmd.length + 2 ≤ f →
    seF f cmd = isSafeToCallWithExec cmd := by
  induction f using Nat.strong_induction_on with
  | _ f ih =>
    intro cmd hf
    cases f with
    | zero => omega
    | succ g =>
      rw [isSafeToCallWithExec, length_add_two]
      cases hconn : cmd.any connectorTok with
      | false => rw [seF_noconn g cmd hconn, seF_noconn (cmd.length + 1) cmd hconn]
      | true =>
        cases hred : cmd.any redirectTok with
        | true =>
          rw [seF_conn_redirect g cmd hconn hred,
            seF_conn_redirect (cmd.length + 1) cmd hconn hred]
        | false =>
          rw [seF_conn_noredirect g cmd hconn hred,
            seF_conn_noredirect (cmd.length + 1) cmd hconn hred]
          have hall : (splitOnSeps connectorTok cmd).all (seF g) =
              (splitOnSeps connectorTok cmd).all (seF (cmd.length + 1)) := by
            apply allCongrMem
            intro p hp
            have hlt := splitOnSeps_mem_lt cmd hconn p hp
            have e1 : seF g p = isSafeToCallWithExec p :=
              ih g (by omega) p (by omega)
            have e2 : seF (cmd.length + 1) p = isSafeToCallWithExec p :=
              ih (cmd.length + 1) (by omega) p (by omega)
            rw [e1, e2]
          rw [hall]

theorem sdp_eq : ∀ (s pre rest : Str), sdp s = some (pre, rest) →
    s = pre ++ '$' :: '(' :: rest := by
  intro s
  induction s with
  | nil => intro pre rest h; exact absurd h (by simp [sdp])
  | cons c s ih =>
    intro pre rest h
    rw [sdp.eq_def] at h
    split at h
    · rename_i r0 hpat
      injection h with h1
      injection h1 with ha hb
      subst ha
      subst hb
      exact hpat
    · rename_i c' s' hpat
      injection hpat with hc hs
      subst hc
      subst hs
      rw [Option.map_eq_some'] at h
      obtain ⟨⟨pa, pb⟩, hsdp, hpr⟩ := h
      injection hpr with ha hb
      subst ha
      subst hb
      rw [ih pa pb hsdp]
      rfl
    · exact absurd h (by simp)

theorem scanParen_eq : ∀ (r : Str) (d : Nat) (inner after : Str),
    scanParen d r = some (inner, after) → r = inner ++ ')' :: after := by
  intro r
  induction r with
  | nil => intro d inner after h; exact absurd h (by simp [scanParen])
  | cons c rest ih =>
    intro d inner after h
    rw [scanParen.eq_def] at h
    split at h
    · exact absurd h (by simp)
    · rename_i c' rest' hpat
      injection hpat with hc hs
      subst hc
      subst hs
      split at h
      · rename_i hc
        subst hc
        rw [Option.map_eq_some'] at h
        obtain ⟨⟨pa, pb⟩, hs, hpr⟩ := h
        injection hpr with ha hb
        subst ha
        subst hb
        rw [List.cons_append, ← ih (d + 1) pa pb hs]
      · split at h
        · rename_i hno hc
          subst hc
          split at h
          · injection h with h1
            injection h1 with ha hb
            subst ha
            subst hb
            rfl
          · rw [Option.map_eq_some'] at h
            obtain ⟨⟨pa, pb⟩, hs, hpr⟩ := h
            injection hpr with ha hb
            subst ha
            subst hb
            rw [List.cons_append, ← ih (d - 1) pa pb hs]
        · rw [Option.map_eq_some'] at h
          obtain ⟨⟨pa, pb⟩, hs, hpr⟩ := h
          injection hpr with ha hb
          subst ha
          subst hb
          rw [List.cons_append, ← ih d pa pb hs]

theorem elide_paren_lt (s pre rest inner after : Str)
    (h1 : sdp s = some (pre, rest))
    (h2 : scanParen 1 rest = some (inner, after)) :
    (pre ++ S "SUBST" ++ after).countP (fun c => c = '(') <
      s.countP (fun c => c = '(') := by
  have e1 := sdp_eq s pre rest h1
  have e2 := scanParen_eq rest 1 inner after h2
  subst e1
  rw [e2]
  have assoc : pre ++ '$' :: '(' :: (inner ++ ')' :: after) =
      pre ++ (S "$(" ++ (inner ++ (S ")" ++ after))) := rfl
  rw [assoc]
  simp only [List.countP_append]
  have c1 : List.countP (fun c => decide (c = '(')) (S "SUBST") = 0 := by decide
  have c2 : List.countP (fun c => decide (c = '(')) (S "$(") = 1 := by decide
  have c3 : List.countP (fun c => decide (c = '(')) (S ")") = 0 := by decide
  rw [c1, c2, c3]
  omega

theorem elideF_suff (f : Nat) : ∀ (s : Str),
    s.countP (fun c => c = '(') + 1 ≤ f → elideF f s = elideSubstitutions s := by
  induction f using Nat.strong_induction_on with
  | _ f ih =>
    intro s hf
    rw [elideSubstitutions]
    cases f with
    | zero => omega
    | succ g =>
      simp only [elideF]
      cases hsdp : sdp s with
      | none => rfl
      | some p =>
        obtain ⟨pre, rest⟩ := p
        dsimp only
        cases hscan : scanParen 1 rest with
        | none => rfl
        | some q =>
          obtain ⟨inner, after⟩ := q
          dsimp only
          by_cases hguard : ((shlexSplitSafe (trimStr inner)).isEmpty ||
              !isSafeToCallWithExec (shlexSplitSafe (trimStr inner))) = true
          · rw [if_pos hguard, if_pos hguard]
          · rw [if_neg hguard, if_neg hguard]
            have hd := elide_paren_lt s pre rest inner after hsdp hscan
            have e1 : elideF g (pre ++ S "SUBST" ++ after) =
                elideSubstitutions (pre ++ S "SUBST" ++ after) :=
              ih g (by omega) _ (by omega)
            have e2 : elideF (s.countP (fun c => c = '(')) (pre ++ S "SUBST" ++ after) =
                elideSubstitutions (pre ++ S "SUBST" ++ after) :=
              ih (s.countP (fun c => c = '(')) (by omega) _ (by omega)
            rw [e1, e2]

theorem alist_cons (t : Str) (rest : Argv) :
    alist (t :: rest) = t.length + 1 + alist rest := rfl

theorem extractAfterPsFlags_measure : ∀ (l : Argv) (script : Str),
    extractAfterPsFlags l = some script → script.length + 1 ≤ alist l := by
  intro l
  induction l with
  | nil => intro script h; exact absurd h (by simp [extractAfterPsFlags])
  | cons t rest ih =>
    intro script h
    rw [extractAfterPsFlags] at h
    split at h
    · have hb := ih script h
      rw [alist_cons]
      omega
    · split at h
      · cases rest with
        | nil => exact absurd h (by simp)
        | cons r rs =>
          simp only [List.head?] at h
          injection h with h
          subst h
          rw [alist_cons, alist_cons]
          omega
      · exact absurd h (by simp)

theorem tryExtract_measure (cmd : Argv) (script : Str)
    (h : tryExtractPowershellCommandScript cmd = some script) :
    script.length + 2 ≤ alist cmd := by
  cases cmd with
  | nil => exact absurd h (by simp [tryExtractPowershellCommandScript])
  | cons p rest =>
    rw [tryExtractPowershellCommandScript] at h
    split at h
    · have hb := extractAfterPsFlags_measure rest script h
      rw [alist_cons]
      omega
    · exact absurd h (by simp)

theorem length_dropWhile_le (p : Char → Bool) : ∀ (l : Str),
    (l.dropWhile p).length ≤ l.length := by
  intro l
  induction l with
  | nil => simp
  | cons a rest ih =>
    rw [List.dropWhile]
    cases p a with
    | true => simp only [List.length_cons]; omega
    | false => simp only [List.length_cons]; omega

theorem trimStr_length_le (s : Str) : (trimStr s).length ≤ s.length := by
  rw [trimStr, List.length_reverse]
  have h1 := length_dropWhile_le Char.isWhitespace s
  have h2 := length_dropWhile_le Char.isWhitespace
    (List.dropWhile Char.isWhitespace s).reverse
  rw [List.length_reverse] at h2
  omega

theorem splitTopAux_mem_length : ∀ (l : Str) (inS inD : Bool) (cur : Str)
    (seg : Str), seg ∈ splitTopAux inS inD cur l →
    seg.length ≤ cur.length + l.length := by
  intro l
  induction l with
  | nil =>
    intro inS inD cur seg hseg
    rw [splitTopAux] at hseg
    split at hseg
    · exact absurd hseg (by simp)
    · rw [List.mem_singleton] at hseg
      subst hseg
      have ht := trimStr_length_le cur
      simp only [List.length_nil]
      omega
  | cons c rest ih =>
    intro inS inD cur seg hseg
    rw [splitTopAux] at hseg
    split at hseg
    · have hb := ih _ _ _ _ hseg
      simp only [List.length_append, List.length_singleton, List.length_nil,
        List.length_cons] at hb ⊢
      omega
    · split at hseg
      · have hb := ih _ _ _ _ hseg
        simp only [List.length_append, List.length_singleton, List.length_nil,
          List.length_cons] at hb ⊢
        omega
      · split at hseg
        · split at hseg
          · have hb := ih _ _ _ _ hseg
            simp only [List.length_nil, List.length_cons] at hb ⊢
            omega
          · rcases List.mem_cons.mp hseg with rfl | hmem
            · have ht := trimStr_length_le cur
              simp only [List.length_cons]
              omega
            · have hb := ih _ _ _ _ hmem
              simp only [List.length_nil, List.length_cons] at hb ⊢
              omega
        · have hb := ih _ _ _ _ hseg
          simp only [List.length_append, List.length_singleton, List.length_nil,
            List.length_cons] at hb ⊢
          omega

theorem splitTop_mem_length (s seg : Str) (h : seg ∈ splitTopLevelSegments s) :
    seg.length ≤ s.length := by
  have hb := splitTopAux_mem_length s false false [] seg h
  simp only [List.length_nil] at hb
  omega

theorem splitSimpleAux_alist : ∀ (l : Str) (inS inD : Bool) (cur : Str),
    alist (splitSimpleAux inS inD cur l) ≤ cur.length + l.length := by
  intro l
  induction l with
  | nil =>
    intro inS inD cur
    rw [splitSimpleAux]
    exact Nat.zero_le _
  | cons c rest ih =>
    intro inS inD cur
    rw [splitSimpleAux]
    split
    · have hb := ih (!inS) inD cur
      simp only [List.length_cons]
      omega
    · split
      · have hb := ih inS (!inD) cur
        simp only [List.length_cons]
        omega
      · split
        · split
          · have hb := ih inS inD []
            simp only [List.length_nil, List.length_cons] at hb ⊢
            omega
          · rw [alist_cons]
            have hb := ih inS inD []
            simp only [List.length_nil, List.length_cons] at hb ⊢
            omega
        · have hb := ih inS inD (cur ++ [c])
          simp only [List.length_append, List.length_singleton, List.length_nil,
            List.length_cons] at hb ⊢
          omega

theorem splitSimpleTokens_alist (seg : Str) :
    alist (splitSimpleTokens seg) ≤ seg.length + 1 := by
  rw [splitSimpleTokens]
  have hb := splitSimpleAux_alist (seg ++ [' ']) false false []
  simp only [List.length_nil, List.length_append, List.length_singleton] at hb
  omega

theorem classify_external (seg : Str) (toks : List Str)
    (h : classifyPsSegment seg = .external toks) :
    toks = splitSimpleTokens seg := by
  simp only [classifyPsSegment] at h
  split at h
  · exact PsSegClass.noConfusion h
  · split at h
    · exact PsSegClass.noConfusion h
    · split at h
      · exact PsSegClass.noConfusion h
      · split at h
        · exact PsSegClass.noConfusion h
        · split at h
          · exact PsSegClass.noConfusion h
          · injection h with h
            exact h.symm

theorem psSegmentScan_mem : ∀ (segs : List Str) (ext : List Argv),
    psSegmentScan segs = some ext → ∀ cmd ∈ ext,
      ∃ seg ∈ segs, cmd = splitSimpleTokens seg := by
  intro segs
  induction segs with
  | nil =>
    intro ext h cmd hcmd
    rw [psSegmentScan] at h
    injection h with h
    subst h
    exact absurd hcmd (by simp)
  | cons seg rest ih =>
    intro ext h cmd hcmd
    rw [psSegmentScan] at h
    cases hcl : classifyPsSegment seg with
    | skip =>
      rw [hcl] at h
      dsimp only at h
      obtain ⟨s', hs', he⟩ := ih ext h cmd hcmd
      exact ⟨s', List.mem_cons_of_mem seg hs', he⟩
    | banned =>
      rw [hcl] at h
      exact absurd h (by simp)
    | external toks =>
      rw [hcl] at h
      dsimp only at h
      rw [Option.map_eq_some'] at h
      obtain ⟨ext', hscan, he⟩ := h
      subst he
      rcases List.mem_cons.mp hcmd with rfl | hmem
      · exact ⟨seg, List.mem_cons_self seg rest, classify_external seg cmd hcl⟩
      · obtain ⟨s', hs', he⟩ := ih ext' hscan cmd hmem
        exact ⟨s', List.mem_cons_of_mem seg hs', he⟩

theorem psScan_cmd_alist (s : Str) (ext : List Argv)
    (h : psSegmentScan (splitTopLevelSegments s) = some ext) :
    ∀ cmd ∈ ext, alist cmd ≤ s.length + 1 := by
  intro cmd hcmd
  obtain ⟨seg, hseg, he⟩ := psSegmentScan_mem _ ext h cmd hcmd
  have h1 := splitTop_mem_length s seg hseg
  have h2 := splitSimpleTokens_alist seg
  rw [he]
  omega

theorem safetyF_inl_nil : ∀ f, safetyF f (.inl []) = false := by
  intro f
  cases f with
  | zero => rfl
  | succ g => rfl

theorem safetyF_step (f : Nat) :
    (∀ cmd, 2 * alist cmd ≤ f →
      safetyF (f + 1) (.inl cmd) = safetyF f (.inl cmd)) ∧
    (∀ s, 2 * s.length + 3 ≤ f →
      safetyF (f + 1) (.inr s) = safetyF f (.inr s)) := by
  induction f using Nat.strong_induction_on with
  | _ f ih =>
    constructor
    · intro cmd hf
      cases f with
      | zero =>
        have hnil : cmd = [] := by
          cases cmd with
          | nil => rfl
          | cons t rest =>
            exfalso
            rw [alist_cons] at hf
            omega
        subst hnil
        rw [safetyF_inl_nil, safetyF_inl_nil]
      | succ g =>
        rw [safetyF, safetyF]
        cases htri : tryExtractPowershellCommandScript cmd with
        | none => rfl
        | some script =>
          dsimp only
          have hm := tryExtract_measure cmd script htri
          have h1 := (ih g (by omega)).2 script (by omega)
          rw [h1]
    · intro s hf
      cases f with
      | zero => omega
      | succ g =>
        rw [safetyF, safetyF]
        cases hscan : psSegmentScan (splitTopLevelSegments s) with
        | none => rfl
        | some ext =>
          dsimp only
          have hmem := psScan_cmd_alist s ext hscan
          have hall : (ext.filter (fun cmd =>
                !((cmd.head?.map (fun h => eqIgnoreCase h (S "type"))).getD
                  false))).all (fun cmd => safetyF (g + 1) (.inl cmd)) =
              (ext.filter (fun cmd =>
                !((cmd.head?.map (fun h => eqIgnoreCase h (S "type"))).getD
                  false))).all (fun cmd => safetyF g (.inl cmd)) := by
            apply allCongrMem
            intro c hc
            have hc' : c ∈ ext := (List.mem_filter.mp hc).1
            have hce := hmem c hc'
            exact (ih g (by omega)).1 c (by omega)
          rw [hall]

theorem safetyF_chain_inl : ∀ (k : Nat) (cmd : Argv),
    safetyF (2 * alist cmd + k) (.inl cmd) =
      safetyF (2 * alist cmd) (.inl cmd) := by
  intro k
  induction k with
  | zero => intro cmd; rfl
  | succ n ihk =>
    intro cmd
    have hstep := (safetyF_step (2 * alist cmd + n)).1 cmd (by omega)
    have he : 2 * alist cmd + (n + 1) = 2 * alist cmd + n + 1 := by omega
    rw [he, hstep]
    exact ihk cmd

theorem safetyF_chain_inr : ∀ (k : Nat) (s : Str),
    safetyF (2 * s.length + 3 + k) (.inr s) =
      safetyF (2 * s.length + 3) (.inr s) := by
  intro k
  induction k with
  | zero => intro s; rfl
  | succ n ihk =>
    intro s
    have hstep := (safetyF_step (2 * s.length + 3 + n)).2 s (by omega)
    have he : 2 * s.length + 3 + (n + 1) = 2 * s.length + 3 + n + 1 := by omega
    rw [he, hstep]
    exact ihk s

theorem safetyF_suff_inl (f : Nat) (cmd : Argv) (hf : 2 * alist cmd ≤ f) :
    safetyF f (.inl cmd) = isKnownSafeCommand cmd := by
  rw [isKnownSafeCommand]
  have he : f = 2 * alist cmd + (f - 2 * alist cmd) := by omega
  rw [he, safetyF_chain_inl (f - 2 * alist cmd) cmd]
  exact (safetyF_chain_inl 1 cmd).symm

theorem safetyF_suff_inr (f : Nat) (s : Str) (hf : 2 * s.length + 3 ≤ f) :
    safetyF f (.inr s) = isPowershellReadOnlyScript s := by
  rw [isPowershellReadOnlyScript]
  have he : f = 2 * s.length + 3 + (f - (2 * s.length + 3)) := by omega
  rw [he, safetyF_chain_inr (f - (2 * s.length + 3)) s]
  have he2 : 2 * (s.length + 1) + 1 = 2 * s.length + 3 + 0 := by omega
  rw [he2, safetyF_chain_inr 0 s]

/-- C10: both entry points terminate on every input.  Each loop of the
source decreases a well-founded measure, so the fuel chosen by each wrapper
of the embedding is sufficient and the recursion bottoms out: (1) a
successful `simplify_once` step strictly shrinks the record sequence, so
the fixpoint loop stops within `length + 1` rounds (10); (2) when a
connector is present every operator-split part of
`is_safe_to_call_with_exec` is strictly shorter than the argv, so (3) any
fuel of at least `length + 2` computes `is_safe_to_call_with_exec`; (4)
every iteration of the `$(...)`-elision loop removes at least one `(`
(the replacement `SUBST` has none), so (5) any fuel above the `(`-count
computes the elision loop's result; (6) a script extracted from a
`powershell -Command` argv is smaller than that argv's total size, and (7)
every external command that `is_powershell_read_only_script` vets is no
larger than the script it came from, hence (8, 9) the mutual recursion
between `is_known_safe_command` and `is_powershell_read_only_script`
reaches a fixed answer: any fuel of at least `2 * alist cmd`
(resp. `2 * length + 3`) computes the wrapper's value. -/
theorem C10_termination :
    (∀ (l next : List ParsedCommand), simplifyOnce l = some next →
      next.length < l.length) ∧
    (∀ (cmd : Argv), cmd.any connectorTok = true →
      ∀ p ∈ splitOnSeps connectorTok cmd, p.length < cmd.length) ∧
    (∀ (f : Nat) (cmd : Argv), cmd.length + 2 ≤ f →
      seF f cmd = isSafeToCallWithExec cmd) ∧
    (∀ (s pre rest inner after : Str), sdp s = some (pre, rest) →
      scanParen 1 rest = some (inner, after) →
      (pre ++ S "SUBST" ++ after).countP (fun c => c = '(') <
        s.countP (fun c => c = '(')) ∧
    (∀ (f : Nat) (s : Str), s.countP (fun c => c = '(') + 1 ≤ f →
      elideF f s = elideSubstitutions s) ∧
    (∀ (cmd : Argv) (script : Str),
      tryExtractPowershellCommandScript cmd = some script →
      script.length + 2 ≤ alist cmd) ∧
    (∀ (s : Str) (ext : List Argv),
      psSegmentScan (splitTopLevelSegments s) = some ext →
      ∀ cmd ∈ ext, alist cmd ≤ s.length + 1) ∧
    (∀ (f : Nat) (cmd : Argv), 2 * alist cmd ≤ f →
      safetyF f (.inl cmd) = isKnownSafeCommand cmd) ∧
    (∀ (f : Nat) (s : Str), 2 * s.length + 3 ≤ f →
      safetyF f (.inr s) = isPowershellReadOnlyScript s) ∧
    (∀ (l : List ParsedCommand), simplifyOnce (simplifyToFixpoint l) = none) := by
  refine ⟨?_, ?_, ?_, ?_, ?_, ?_, ?_, ?_, ?_, ?_⟩
  · intro l next h
    have hl := simplifyOnce_some_length h
    omega
  · exact splitOnSeps_mem_lt
  · exact seF_suff
  · exact elide_paren_lt
  · exact elideF_suff
  · exact tryExtract_measure
  · exact psScan_cmd_alist
  · exact safetyF_suff_inl
  · exact safetyF_suff_inr
  · intro l
    rw [simplifyToFixpoint]
    exact simplifyFuelled_fixpoint (l.length + 1) l (by omega)

/-- C10 witness: every hypothesis of `C10_termination` discharged at a
concrete input, with the embedded functions evaluated. -/
theorem C10_witness :
    ([ParsedCommand.unknown (S "x")].length <
      [ParsedCommand.unknown (S "true"), ParsedCommand.unknown (S "x")].length) ∧
    [S "ls"].length < [S "ls", S "|", S "wc"].length ∧
    seF 6 [S "ls"] = isSafeToCallWithExec [S "ls"] ∧
    ((S "" ++ S "SUBST" ++ S "").countP (fun c => c = '(') <
      (S "$(ls)").countP (fun c => c = '(')) ∧
    elideF 2 (S "ls") = elideSubstitutions (S "ls") ∧
    (S "ls").length + 2 ≤ alist [S "pwsh", S "-Command", S "ls"] ∧
    alist [S "ab"] ≤ (S "ab").length + 1 ∧
    safetyF 20 (.inl [S "ls"]) = isKnownSafeCommand [S "ls"] ∧
    safetyF 20 (.inr (S "ls")) = isPowershellReadOnlyScript (S "ls") :=
  ⟨C10_termination.1 [ParsedCommand.unknown (S "true"),
      ParsedCommand.unknown (S "x")] [ParsedCommand.unknown (S "x")] (by decide),
   C10_termination.2.1 [S "ls", S "|", S "wc"] (by decide) [S "ls"] (by decide),
   C10_termination.2.2.1 6 [S "ls"] (by decide),
   C10_termination.2.2.2.1 (S "$(ls)") (S "") (S "ls)") (S "ls") (S "")
     (by decide) (by decide),
   C10_termination.2.2.2.2.1 2 (S "ls") (by decide),
   C10_termination.2.2.2.2.2.1 [S "pwsh", S "-Command", S "ls"] (S "ls")
     (by decide),
   C10_termination.2.2.2.2.2.2.1 (S "ab") [[S "ab"]] (by decide) [S "ab"]
     (by decide),
   C10_termination.2.2.2.2.2.2.2.1 20 [S "ls"] (by decide),
   C10_termination.2.2.2.2.2.2.2.2.1 20 (S "ls") (by decide)⟩

end CodexSpec
